import Mathlib

/-!
Verification development for pysdd.io (PySDD).

The source file `pysdd/io.py` contains three components:
* `nnf_file_wmc`  : weighted model counting over a parsed NNF text file;
* `sdd_file_wmc`  : weighted model counting over a parsed SDD text file;
* `sdd_to_dot`    : DOT-text rendering of an in-memory SDD DAG
  (with the module-level global counter `node_count`).

Modelling conventions (shallow embedding):
* Python floats are modelled as rationals (ℚ); all weights appearing in the
  development (0.3, 0.4, 1.0, ...) are dyadic/decimal values whose float
  arithmetic in the scenarios is exact, so ℚ is a faithful carrier.
* A text line `cols = line.strip().split(' ')` is modelled after tokenisation
  as a leading tag string together with the remaining columns already parsed
  as integers (`Line`).  Malformed integer columns (ValueError) are outside
  the scope of every claim and are not modelled.
* Python exceptions are an explicit error monad (`Except PyErr`).  All
  IndexError occurrences are identified (one value), as are all TypeError
  occurrences; the format Exception carries its message string.
* Python list indexing wraps negative indices (`xs[-1]` is the last entry);
  `pyIdx`/`pyGet`/`pySet` reproduce this.
* The Python dict of weights is modelled as an association list with
  first-match lookup (claim inputs have distinct keys).
-/

deriving instance DecidableEq for Except

namespace PySddIO

/-- Python exceptions raised by the evaluators: `Exception(msg)`,
`TypeError` (arithmetic on `None`), `IndexError` (bad list subscript). -/
inductive PyErr where
  | exc (msg : String)
  | typeErr
  | indexErr

deriving DecidableEq

/-- One tokenised text line: the leading token `cols[0]` and the remaining
columns parsed as integers (`cols[1:]`). -/
structure Line where
  tag : String
  args : List Int

deriving DecidableEq

/-- Python list index resolution: a negative index `i` addresses `len + i`;
out-of-range resolution is `none` (IndexError). -/
def pyIdx (len : Nat) (i : Int) : Option Nat :=
  if 0 ≤ i then
    if i.toNat < len then some i.toNat else none
  else
    let j : Int := (len : Int) + i
    if 0 ≤ j ∧ j.toNat < len then some j.toNat else none

/-- Python `xs[i]` for lists, with negative-index wrapping. -/
def pyGet {α : Type} (xs : List α) (i : Int) : Except PyErr α :=
  match pyIdx xs.length i with
  | some n =>
    match xs[n]? with
    | some a => .ok a
    | none => .error .indexErr
  | none => .error .indexErr

/-- Python `xs[i] = a` for lists, with negative-index wrapping. -/
def pySet {α : Type} (xs : List α) (i : Int) (a : α) : Except PyErr (List α) :=
  match pyIdx xs.length i with
  | some n => .ok (xs.set n a)
  | none => .error .indexErr

/-- Python `cols[1 + i]`: fetch the i-th parsed integer column (0-based in
`args`), raising IndexError when the line is too short. -/
def argN (l : Line) (i : Nat) : Except PyErr Int :=
  match l.args[i]? with
  | some x => .ok x
  | none => .error .indexErr

/-- Python list subscript with a non-negative index (used for `elmts[...]`). -/
def listN (xs : List Int) (i : Nat) : Except PyErr Int :=
  match xs[i]? with
  | some x => .ok x
  | none => .error .indexErr

/-- Python `weights[lit] if lit in weights` on the weight dictionary,
modelled as association-list lookup. -/
def lookupW (ws : List (Int × ℚ)) (lit : Int) : Option ℚ :=
  List.lookup lit ws

/-! ## NNF evaluator (`nnf_file_wmc`) -/
/-- Evaluator state threaded through the `for line in ...` loop of
`nnf_file_wmc`: the weight array `wmc`, the running line slot `ln`, and the
`detected_nnf` flag. -/
structure NnfSt where
  wmc : List (Option ℚ)
  ln : Nat
  detected : Bool

deriving DecidableEq

/-- The accumulation loops of `nnf_file_wmc`:
`for i in range(k): wmc[ln] op= wmc[int(cols[off + i])]`.
`off` is the position in `args` of the first child column (1 for `A`,
2 for `O`), `i` the loop counter, the second `Nat` the remaining iteration
count.  Arithmetic on an unassigned (`None`) slot is a TypeError. -/
def accLoop (op : ℚ → ℚ → ℚ) (ln : Int) (args : List Int) (off : Nat) :
    Nat → Nat → List (Option ℚ) → Except PyErr (List (Option ℚ))
  | _, 0, wmc => .ok wmc
  | i, rem + 1, wmc =>
    match listN args (off + i) with
    | .error e => .error e
    | .ok c =>
      match pyGet wmc ln with
      | .error e => .error e
      | .ok cur =>
        match pyGet wmc c with
        | .error e => .error e
        | .ok cv =>
          match cur, cv with
          | some a, some b =>
            match pySet wmc ln (some (op a b)) with
            | .error e => .error e
            | .ok wmc2 => accLoop op ln args off (i + 1) rem wmc2
          | _, _ => .error .typeErr

/-- One iteration of the line loop of `nnf_file_wmc`, mirroring the Python
statement order: comment skip, header (`nnf`) handling, the
`detected_nnf` guard, then the `L` / `A` / `O` branches (the leading tags
are mutually exclusive, so the sequence of `if`s in the source is an
`if`/`else` chain here), and the final `ln += 1`. -/
def nnfStep (weights : List (Int × ℚ)) (st : NnfSt) (l : Line) :
    Except PyErr NnfSt :=
  if l.tag = "c" then .ok st
  else if l.tag = "nnf" then
    match argN l 0 with
    | .error e => .error e
    | .ok n => .ok ⟨List.replicate n.toNat none, st.ln, true⟩
  else if st.detected = false then
    .error (.exc "An NNF file should start with nnf")
  else if l.tag = "L" then
    match argN l 0 with
    | .error e => .error e
    | .ok lit =>
      let w : ℚ :=
        match lookupW weights lit with
        | some q => q
        | none => 1
      match pySet st.wmc (st.ln : Int) (some w) with
      | .error e => .error e
      | .ok wmc2 => .ok ⟨wmc2, st.ln + 1, true⟩
  else if l.tag = "A" then
    match argN l 0 with
    | .error e => .error e
    | .ok k =>
      match pySet st.wmc (st.ln : Int) (some 1) with
      | .error e => .error e
      | .ok wmc1 =>
        match accLoop (· * ·) (st.ln : Int) l.args 1 0 k.toNat wmc1 with
        | .error e => .error e
        | .ok wmc2 => .ok ⟨wmc2, st.ln + 1, true⟩
  else if l.tag = "O" then
    match argN l 1 with
    | .error e => .error e
    | .ok k =>
      match pySet st.wmc (st.ln : Int) (some 0) with
      | .error e => .error e
      | .ok wmc1 =>
        match accLoop (· + ·) (st.ln : Int) l.args 2 0 k.toNat wmc1 with
        | .error e => .error e
        | .ok wmc2 => .ok ⟨wmc2, st.ln + 1, true⟩
  else .ok ⟨st.wmc, st.ln + 1, st.detected⟩

/-- Run the line loop of `nnf_file_wmc` from a given state. -/
def nnfRunFrom (weights : List (Int × ℚ)) (st : NnfSt) :
    List Line → Except PyErr NnfSt
  | [] => .ok st
  | l :: ls =>
    match nnfStep weights st l with
    | .error e => .error e
    | .ok st2 => nnfRunFrom weights st2 ls

/-- Run the line loop of `nnf_file_wmc` from the initial state
(`wmc = []`, `ln = 0`, `detected_nnf = False`). -/
def nnfRun (weights : List (Int × ℚ)) (lines : List Line) :
    Except PyErr NnfSt :=
  nnfRunFrom weights ⟨[], 0, false⟩ lines

/-- `nnf_file_wmc`: process every line, then `return wmc[-1]`. -/
def nnf_file_wmc (lines : List Line) (weights : List (Int × ℚ)) :
    Except PyErr (Option ℚ) :=
  match nnfRun weights lines with
  | .error e => .error e
  | .ok st => pyGet st.wmc (-1)

/-! ## SDD evaluator (`sdd_file_wmc`) -/
/-- Evaluator state of `sdd_file_wmc` (the `ln` counter is incremented but
never read in the source; it is kept for fidelity). -/
structure SddSt where
  wmc : List (Option ℚ)
  ln : Nat
  detected : Bool

deriving DecidableEq

/-- The `D`-line loop of `sdd_file_wmc`:
`for idx in range(nb_elmts): w += wmc[elmts[2*idx]] * wmc[elmts[2*idx+1]]`,
with the Python evaluation order (`elmts[2*idx]`, then `wmc[...]`, then
`elmts[2*idx+1]`, then `wmc[...]`, then the product). -/
def sddDLoop (wmc : List (Option ℚ)) (elmts : List Int) :
    Nat → Nat → ℚ → Except PyErr ℚ
  | _, 0, w => .ok w
  | idx, rem + 1, w =>
    match listN elmts (2 * idx) with
    | .error e => .error e
    | .ok p =>
      match pyGet wmc p with
      | .error e => .error e
      | .ok pv =>
        match listN elmts (2 * idx + 1) with
        | .error e => .error e
        | .ok s =>
          match pyGet wmc s with
          | .error e => .error e
          | .ok sv =>
            match pv, sv with
            | some a, some b => sddDLoop wmc elmts (idx + 1) rem (w + a * b)
            | _, _ => .error .typeErr

/-- One iteration of the line loop of `sdd_file_wmc`. -/
def sddStep (weights : List (Int × ℚ)) (st : SddSt) (l : Line) :
    Except PyErr SddSt :=
  if l.tag = "c" then .ok st
  else if l.tag = "sdd" then
    match argN l 0 with
    | .error e => .error e
    | .ok n => .ok ⟨List.replicate n.toNat none, st.ln, true⟩
  else if st.detected = false then
    .error (.exc "An SDD file should start with sdd")
  else if l.tag = "L" then
    match argN l 0 with
    | .error e => .error e
    | .ok nodeid =>
      match argN l 2 with
      | .error e => .error e
      | .ok lit =>
        let w : ℚ :=
          match lookupW weights lit with
          | some q => q
          | none => 1
        match pySet st.wmc nodeid (some w) with
        | .error e => .error e
        | .ok wmc2 => .ok ⟨wmc2, st.ln + 1, true⟩
  else if l.tag = "F" then
    match argN l 0 with
    | .error e => .error e
    | .ok nodeid =>
      match pySet st.wmc nodeid (some 0) with
      | .error e => .error e
      | .ok wmc2 => .ok ⟨wmc2, st.ln + 1, true⟩
  else if l.tag = "T" then
    match argN l 0 with
    | .error e => .error e
    | .ok nodeid =>
      match pySet st.wmc nodeid (some 1) with
      | .error e => .error e
      | .ok wmc2 => .ok ⟨wmc2, st.ln + 1, true⟩
  else if l.tag = "D" then
    match argN l 0 with
    | .error e => .error e
    | .ok nodeid =>
      match argN l 2 with
      | .error e => .error e
      | .ok nb =>
        match sddDLoop st.wmc (l.args.drop 3) 0 nb.toNat 0 with
        | .error e => .error e
        | .ok w =>
          match pySet st.wmc nodeid (some w) with
          | .error e => .error e
          | .ok wmc2 => .ok ⟨wmc2, st.ln + 1, true⟩
  else .ok ⟨st.wmc, st.ln + 1, st.detected⟩

/-- Run the line loop of `sdd_file_wmc` from a given state. -/
def sddRunFrom (weights : List (Int × ℚ)) (st : SddSt) :
    List Line → Except PyErr SddSt
  | [] => .ok st
  | l :: ls =>
    match sddStep weights st l with
    | .error e => .error e
    | .ok st2 => sddRunFrom weights st2 ls

/-- Run the line loop of `sdd_file_wmc` from the initial state. -/
def sddRun (weights : List (Int × ℚ)) (lines : List Line) :
    Except PyErr SddSt :=
  sddRunFrom weights ⟨[], 0, false⟩ lines

/-- `sdd_file_wmc`: process every line, then `return wmc[0]`. -/
def sdd_file_wmc (lines : List Line) (weights : List (Int × ℚ)) :
    Except PyErr (Option ℚ) :=
  match sddRun weights lines with
  | .error e => .error e
  | .ok st => pyGet st.wmc 0

/-! ## DOT renderer (`sdd_to_dot`)

The in-memory `SddNode` DAG of the external engine is modelled as a tree
whose nodes carry their stable `id` (spec §3: unique within the DAG) and
optional vtree position; DAG sharing is recovered through node equality.
Python's `visited` set of node objects is modelled as a list of nodes with
membership by decidable equality (ids are unique per node, so this is the
object identity of the engine).  The module-level global `node_count` is
threaded explicitly: `sdd_to_dot` receives the incoming global value and
returns the outgoing one. -/
mutual
/-- The four-variant tagged union of SDD nodes (spec §3): true terminal,
false terminal, literal, decision with an ordered (prime, sub) element
list. -/
inductive SddNode where
  | tru (id : Int) (vp : Option Int)
  | fls (id : Int) (vp : Option Int)
  | lit (id : Int) (vp : Option Int) (literal : Int)
  | dec (id : Int) (vp : Option Int) (elems : EList)
/-- The element list of a decision node: ordered (prime, sub) pairs. -/
inductive EList where
  | nil
  | cons (prime sub : SddNode) (rest : EList)
end

deriving instance DecidableEq for SddNode

deriving instance DecidableEq for EList

/-- The stable id of a node (`node.id`). -/
def SddNode.nid : SddNode → Int
  | .tru i _ => i
  | .fls i _ => i
  | .lit i _ _ => i
  | .dec i _ _ => i

/-- The vtree position of a node (`node.vtree().position()` when a vtree is
attached, `None` otherwise). -/
def SddNode.vpos : SddNode → Option Int
  | .tru _ v => v
  | .fls _ v => v
  | .lit _ v _ => v
  | .dec _ v _ => v

/-- A label-map key: a literal integer or one of the reserved string tags
(`"true"`, `"false"`, `"add"`, `"mult"`, and display strings fed back in
the second lookup of `_format_sddnode_label`). -/
inductive LKey where
  | int (i : Int)
  | str (s : String)

deriving DecidableEq

/-- The label map (`litnamemap`): dictionary from keys to display strings,
as association list with first-match lookup. -/
def LMap := List (LKey × String)

/-- `litnamemap.get(key, default)`. -/
def lmGet (lm : LMap) (k : LKey) (dflt : String) : String :=
  match List.lookup k lm with
  | some s => s
  | none => dflt

/-- `_format_sddnode_label(node, None, litnamemap)` for leaf nodes: the
true/false glyph is looked up (tag key, then once more with the resulting
display string as key, as in the source); a literal uses its integer as
key and falls back to the printed integer.  Never called on decision nodes
by the renderer. -/
def formatLabel (node : SddNode) (lm : LMap) : String :=
  match node with
  | .tru _ _ =>
    let s := lmGet lm (.str "true") "⟙"
    lmGet lm (.str s) s
  | .fls _ _ =>
    let s := lmGet lm (.str "false") "⟘"
    lmGet lm (.str s) s
  | .lit _ _ l =>
    match List.lookup (LKey.int l) lm with
    | some s => s
    | none => toString l
  | .dec _ _ _ => ""

/-- `_format_sddnode_xlabel(node)`: `Id:<id>\nVp:<pos-or-n>` (the `\n` is a
literal backslash-n in the DOT output). -/
def formatXlabel (node : SddNode) : String :=
  let vtreePos :=
    match node.vpos with
    | some p => toString p
    | none => "n"
  "Id:" ++ toString node.nid ++ "\\nVp:" ++ vtreePos

/-- The leaf branch of `_sddnode_to_dot_int` (true/false/literal node not
yet in the visited set). -/
def renderLeaf (lm : LMap) (showId mergeLeafs : Bool) (node : SddNode)
    (visited : List SddNode) (cnt : Nat) :
    String × List String × List SddNode × Nat :=
  let visited1 := if mergeLeafs then node :: visited else visited
  let label := formatLabel node lm
  let extra := if showId then ",xlabel=\"" ++ formatXlabel node ++ "\"" else ""
  let idCnt : String × Nat :=
    if mergeLeafs then (toString node.nid, cnt)
    else ("n" ++ toString cnt ++ "_" ++ toString node.nid, cnt + 1)
  (idCnt.1,
    [idCnt.1 ++ " [shape=rectangle,label=\"" ++ label ++ "\"" ++ extra ++ "];"],
    visited1, idCnt.2)

mutual
/-- `_sddnode_to_dot_int`: returns (nodeid, statement lines, visited set,
counter).  `visited` and `cnt` model the mutated set argument and the
global `node_count`. -/
def renderNode (lm : LMap) (showId mergeLeafs : Bool) :
    SddNode → List SddNode → Nat → (String × List String × List SddNode × Nat)
  | node@(.tru i vp), visited, cnt =>
    if node ∈ visited then (toString i, [], visited, cnt)
    else renderLeaf lm showId mergeLeafs (.tru i vp) visited cnt
  | node@(.fls i vp), visited, cnt =>
    if node ∈ visited then (toString i, [], visited, cnt)
    else renderLeaf lm showId mergeLeafs (.fls i vp) visited cnt
  | node@(.lit i vp l), visited, cnt =>
    if node ∈ visited then (toString i, [], visited, cnt)
    else renderLeaf lm showId mergeLeafs (.lit i vp l) visited cnt
  | node@(.dec i vp elems), visited, cnt =>
    if node ∈ visited then (toString i, [], visited, cnt)
    else
      -- decision node: added to the visited set before the recursion
      let visited1 := SddNode.dec i vp elems :: visited
      let extra :=
        if showId then ",xlabel=\"" ++ formatXlabel (.dec i vp elems) ++ "\"" else ""
      let nodeid := toString i
      let head := nodeid ++ " [shape=circle,label=\"" ++ lmGet lm (.str "add") "+"
        ++ "\"" ++ extra ++ "];"
      let r := renderElems lm showId mergeLeafs i 0 elems visited1 cnt
      (nodeid, head :: r.1, r.2.1, r.2.2)
/-- The `for idx, (prime, sub) in enumerate(node.elements())` loop body of
the decision branch. -/
def renderElems (lm : LMap) (showId mergeLeafs : Bool) (decId : Int) :
    Nat → EList → List SddNode → Nat → (List String × List SddNode × Nat)
  | _, .nil, visited, cnt => ([], visited, cnt)
  | idx, .cons prime sub rest, visited, cnt =>
    let rp := renderNode lm showId mergeLeafs prime visited cnt
    let rs := renderNode lm showId mergeLeafs sub rp.2.2.1 rp.2.2.2
    let psId := "ps_" ++ toString decId ++ "_" ++ toString idx
    let four := [
      psId ++ " [shape=circle, label=\"" ++ lmGet lm (.str "mult") "×" ++ "\"];",
      toString decId ++ " -> " ++ psId ++ " [arrowhead=none];",
      psId ++ " -> " ++ rp.1 ++ ";",
      psId ++ " -> " ++ rs.1 ++ ";"]
    let rr := renderElems lm showId mergeLeafs decId (idx + 1) rest rs.2.2.1 rs.2.2.2
    (four ++ rp.2.1 ++ rs.2.1 ++ rr.1, rr.2.1, rr.2.2)
end

/-- `sdd_to_dot(node, litnamemap, show_id, merge_leafs)`.  The final `Nat`
argument is the value of the module global `node_count` when the call
starts; the returned `Nat` is its value when the call returns.  The global
is reset to `0` at the top of the function, before the `None` check. -/
def sdd_to_dot (node : Option SddNode) (litnamemap : Option LMap)
    (showId mergeLeafs : Bool) (gIn : Nat) : Except String String × Nat :=
  let g0 : Nat := 0
  let lm := litnamemap.getD []
  match node with
  | none => (.error "No root node given", g0)
  | some n =>
    let r := renderNode lm showId mergeLeafs n [] g0
    (.ok (String.intercalate "\n"
      (["digraph sdd \x7b"] ++ r.2.1 ++ ["\x7d"])), r.2.2.2)

/-! ## Claim C7: semantics of NNF files

A body slot denotes a Boolean function over the `v` variables declared in
the header.  References must point to earlier slots (the file-format
ordering convention); the fueled recursion returns junk (`false` / `∅`)
on out-of-order references, which the well-formedness hypotheses rule
out. -/
/-- Truth value of the literal `lit` (1-based DIMACS-style variable
numbering, negative for negated) under an assignment of the `v`
variables. -/
def litVal (v : Nat) (f : Fin v → Bool) (lit : Int) : Bool :=
  if h : lit.natAbs - 1 < v then
    (if 0 < lit then f ⟨lit.natAbs - 1, h⟩ else !(f ⟨lit.natAbs - 1, h⟩))
  else false

/-- The child-slot references of a body line (`A k c1..ck` /
`O j k c1..ck`). -/
def childRefs (l : Line) : List Int :=
  if l.tag = "A" then
    match l.args with
    | k :: cs => cs.take k.toNat
    | [] => []
  else if l.tag = "O" then
    match l.args with
    | _ :: k :: cs => cs.take k.toNat
    | _ => []
  else []

/-- Fueled denotation of slot `i` of an NNF body. -/
def denF (body : List Line) (v : Nat) (f : Fin v → Bool) :
    Nat → Nat → Bool
  | 0, _ => false
  | fuel + 1, i =>
    match body[i]? with
    | none => false
    | some l =>
      if l.tag = "L" then
        match l.args with
        | lit :: _ => litVal v f lit
        | [] => false
      else if l.tag = "A" then
        (childRefs l).all (fun c =>
          if 0 ≤ c ∧ c.toNat < i then denF body v f fuel c.toNat else false)
      else if l.tag = "O" then
        (childRefs l).any (fun c =>
          if 0 ≤ c ∧ c.toNat < i then denF body v f fuel c.toNat else false)
      else false

/-- Fueled scope (set of 0-based variable indices) of slot `i`. -/
def scopeF (body : List Line) : Nat → Nat → Finset Nat
  | 0, _ => ∅
  | fuel + 1, i =>
    match body[i]? with
    | none => ∅
    | some l =>
      if l.tag = "L" then
        match l.args with
        | lit :: _ => {lit.natAbs - 1}
        | [] => ∅
      else
        ((childRefs l).map (fun c =>
          if 0 ≤ c ∧ c.toNat < i then scopeF body fuel c.toNat else ∅)).foldr
          (· ∪ ·) ∅

/-- Denotation of body slot `i` (enough fuel for backward references). -/
def den (body : List Line) (v : Nat) (f : Fin v → Bool) (i : Nat) : Bool :=
  denF body v f (i + 1) i

/-- Scope of body slot `i`. -/
def scope (body : List Line) (i : Nat) : Finset Nat :=
  scopeF body (i + 1) i

/-! ## Counting assignments -/
/-- Number of assignments of `v` variables satisfying the Boolean-valued
predicate `P`. -/
def cnt (v : Nat) (P : (Fin v → Bool) → Bool) : ℕ :=
  (Finset.univ.filter (fun f => P f = true)).card

/-- `P` depends only on the variables (0-based indices) in `S`. -/
def DepOn (v : Nat) (P : (Fin v → Bool) → Bool) (S : Finset Nat) : Prop :=
  ∀ f g : Fin v → Bool, (∀ ix : Fin v, (ix : Nat) ∈ S → f ix = g ix) → P f = P g

/-- Combine two assignments: components in `S` from `f`, the rest from
`g`. -/
def mergeOn {v : Nat} (S : Finset Nat) (f g : Fin v → Bool) : Fin v → Bool :=
  fun ix => if (ix : Nat) ∈ S then f ix else g ix

/-- Conjunction of a list of predicates. -/
def andPred {v : Nat} (ps : List ((Fin v → Bool) → Bool)) :
    (Fin v → Bool) → Bool :=
  fun f => ps.all (fun p => p f)

/-- Disjunction of a list of predicates. -/
def orPred {v : Nat} (ps : List ((Fin v → Bool) → Bool)) :
    (Fin v → Bool) → Bool :=
  fun f => ps.any (fun p => p f)

/-- Union of a list of variable-index sets. -/
def unionAll (L : List (Finset Nat)) : Finset Nat :=
  L.foldr (· ∪ ·) ∅

/-! ## Well-formedness of NNF files -/
/-- The line at index `i` (dummy line when out of range). -/
def lineAt (body : List Line) (i : Nat) : Line := body.getD i ⟨"", []⟩

/-- Structural well-formedness of body line `i`: recognized tag, arity,
literal in range, references backward and non-negative. -/
def lineWFb (v : Nat) (i : Nat) (l : Line) : Bool :=
  if l.tag = "L" then
    match l.args with
    | lit :: _ => decide (lit ≠ 0) && decide (lit.natAbs ≤ v)
    | [] => false
  else if l.tag = "A" then
    match l.args with
    | k :: cs =>
      decide (k.toNat ≤ cs.length) &&
        (cs.take k.toNat).all (fun c => decide (0 ≤ c) && decide (c.toNat < i))
    | [] => false
  else if l.tag = "O" then
    match l.args with
    | _ :: k :: cs =>
      decide (k.toNat ≤ cs.length) &&
        (cs.take k.toNat).all (fun c => decide (0 ≤ c) && decide (c.toNat < i))
    | _ => false
  else false

/-- Structural well-formedness of an NNF body. -/
def NnfWF (body : List Line) (v : Nat) : Prop :=
  ∀ i, i < body.length → lineWFb v i (lineAt body i) = true

/-- Semantic side conditions: decomposable `A` lines (children with
pairwise disjoint scopes), smooth `O` lines (all children with the same
scope) and deterministic `O` lines (children pairwise unsatisfiable
together). -/
def NnfSem (body : List Line) (v : Nat) : Prop :=
  ∀ i, i < body.length →
    ((lineAt body i).tag = "A" →
      (childRefs (lineAt body i)).Pairwise
        (fun a b => Disjoint (scope body a.toNat) (scope body b.toNat))) ∧
    ((lineAt body i).tag = "O" →
      ((∀ c1 ∈ childRefs (lineAt body i), ∀ c2 ∈ childRefs (lineAt body i),
          scope body c1.toNat = scope body c2.toNat) ∧
       (childRefs (lineAt body i)).Pairwise (fun a b => ∀ f : Fin v → Bool,
          ¬(den body v f a.toNat = true ∧ den body v f b.toNat = true))))

/-- The weight table maps every literal over the `v` variables (both
polarities) to `1.0`. -/
def AllOnes (weights : List (Int × ℚ)) (v : Nat) : Prop :=
  ∀ x : Nat, x < v → lookupW weights ((x : Int) + 1) = some 1 ∧
    lookupW weights (-((x : Int) + 1)) = some 1

instance (body : List Line) (v : Nat) : Decidable (NnfWF body v) := by
  unfold NnfWF
  infer_instance

instance (body : List Line) (v : Nat) : Decidable (NnfSem body v) := by
  unfold NnfSem
  exact @Nat.decidableBallLT body.length _ (fun i h => inferInstance)

instance (weights : List (Int × ℚ)) (v : Nat) :
    Decidable (AllOnes weights v) := by
  unfold AllOnes
  infer_instance

/-- The invariant carried by an assigned slot during evaluation. -/
def SlotInv (body : List Line) (v : Nat) (wmc : List (Option ℚ)) (i : Nat) :
    Prop :=
  ∃ w : ℚ, wmc[i]? = some (some w) ∧
    (cnt v (fun f => den body v f i) : ℚ) * 2 ^ (scope body i).card =
      w * 2 ^ v

/-- Read an assigned slot weight out of the array (0 as junk default). -/
def slotW (wmc : List (Option ℚ)) (c : Int) : ℚ :=
  ((wmc.getD c.toNat none).getD 0)

/-- Number of satisfying assignments of the function encoded by the last
body slot of an NNF file, over `v` declared variables. -/
def nnfModelCount (body : List Line) (v : Nat) : ℕ :=
  cnt v (fun f => den body v f (body.length - 1))

/-! ## Semantics of SDD files

`sdd_file_wmc` indexes the weight array by node id; a `D` line references
the ids of earlier lines.  The denotation of a body line is defined by
resolving each referenced id to its (unique, strictly earlier) defining
line. -/
/-- The node id defined (written) by an SDD body line. -/
def defId (l : Line) : Option Int :=
  if l.tag = "L" ∨ l.tag = "F" ∨ l.tag = "T" ∨ l.tag = "D" then l.args[0]?
  else none

/-- Index of the first body line defining node id `r`. -/
def defIdx (body : List Line) (r : Int) : Option Nat :=
  match body with
  | [] => none
  | l :: rest =>
    if defId l = some r then some 0 else (defIdx rest r).map (· + 1)

/-- Pair up a flat element list `p1 s1 p2 s2 …` into (prime, sub) id
pairs. -/
def pairUp : List Int → List (Int × Int)
  | a :: b :: rest => (a, b) :: pairUp rest
  | _ => []

/-- The (prime, sub) id pairs of a `D` line
(`D <id> <vt> <k> <p1> <s1> …`). -/
def elemRefs (l : Line) : List (Int × Int) :=
  if l.tag = "D" then
    match l.args with
    | _ :: _ :: k :: elmts => pairUp (elmts.take (2 * k.toNat))
    | _ => []
  else []

/-- Resolve a node-id reference used at line `i` of an SDD body to its
(strictly earlier) defining line. -/
def resolve (body : List Line) (i : Nat) (r : Int) : Option Nat :=
  match defIdx body r with
  | some p => if p < i then some p else none
  | none => none

/-- Defining-line index of a reference (junk `0` when unresolvable). -/
def resIdx (body : List Line) (i : Nat) (r : Int) : Nat :=
  (resolve body i r).getD 0

/-- Fueled denotation of line `i` of an SDD body. -/
def denSF (body : List Line) (v : Nat) (f : Fin v → Bool) :
    Nat → Nat → Bool
  | 0, _ => false
  | fuel + 1, i =>
    match body[i]? with
    | none => false
    | some l =>
      if l.tag = "L" then
        match l.args with
        | _ :: _ :: lit :: _ => litVal v f lit
        | _ => false
      else if l.tag = "F" then false
      else if l.tag = "T" then true
      else if l.tag = "D" then
        (elemRefs l).any (fun pr =>
          match resolve body i pr.1, resolve body i pr.2 with
          | some p, some q => denSF body v f fuel p && denSF body v f fuel q
          | _, _ => false)
      else false

/-- Fueled scope of line `i` of an SDD body. -/
def scopeSF (body : List Line) : Nat → Nat → Finset Nat
  | 0, _ => ∅
  | fuel + 1, i =>
    match body[i]? with
    | none => ∅
    | some l =>
      if l.tag = "L" then
        match l.args with
        | _ :: _ :: lit :: _ => {lit.natAbs - 1}
        | _ => ∅
      else if l.tag = "D" then
        unionAll ((elemRefs l).map (fun pr =>
          match resolve body i pr.1, resolve body i pr.2 with
          | some p, some q => scopeSF body fuel p ∪ scopeSF body fuel q
          | _, _ => ∅))
      else ∅

/-- Denotation of SDD body line `i`. -/
def denS (body : List Line) (v : Nat) (f : Fin v → Bool) (i : Nat) : Bool :=
  denSF body v f (i + 1) i

/-- Scope of SDD body line `i`. -/
def scopeS (body : List Line) (i : Nat) : Finset Nat :=
  scopeSF body (i + 1) i

/-- Denotation of one (prime, sub) element of a `D` line at line `i`. -/
def elemDen (body : List Line) (v : Nat) (i : Nat) (pr : Int × Int)
    (f : Fin v → Bool) : Bool :=
  denS body v f (resIdx body i pr.1) && denS body v f (resIdx body i pr.2)

/-- Scope of one (prime, sub) element of a `D` line at line `i`. -/
def elemScope (body : List Line) (i : Nat) (pr : Int × Int) : Finset Nat :=
  scopeS body (resIdx body i pr.1) ∪ scopeS body (resIdx body i pr.2)

/-- Structural well-formedness of SDD body line `i`: recognized tag,
arity, node id inside the declared slot range, literal in range, and both
ids of every element resolving to strictly earlier defining lines. -/
def sddLineWFb (body : List Line) (n : Int) (v : Nat) (i : Nat)
    (l : Line) : Bool :=
  if l.tag = "L" then
    match l.args with
    | id :: _ :: lit :: _ =>
      decide (0 ≤ id) && decide (id.toNat < n.toNat) &&
        decide (lit ≠ 0) && decide (lit.natAbs ≤ v)
    | _ => false
  else if l.tag = "F" ∨ l.tag = "T" then
    match l.args with
    | id :: _ => decide (0 ≤ id) && decide (id.toNat < n.toNat)
    | [] => false
  else if l.tag = "D" then
    match l.args with
    | id :: _ :: k :: elmts =>
      decide (0 ≤ id) && decide (id.toNat < n.toNat) &&
        decide (2 * k.toNat ≤ elmts.length) &&
        (pairUp (elmts.take (2 * k.toNat))).all (fun pr =>
          (resolve body i pr.1).isSome && (resolve body i pr.2).isSome)
    | _ => false
  else false

/-- Structural well-formedness of an SDD body: every line well-formed,
and node ids pairwise distinct. -/
def SddWF (body : List Line) (n : Int) (v : Nat) : Prop :=
  (∀ i, i < body.length → sddLineWFb body n v i (lineAt body i) = true) ∧
  (∀ i, i < body.length → ∀ j, j < body.length → i ≠ j →
    defId (lineAt body i) ≠ defId (lineAt body j))

/-- Semantic side conditions on `D` lines: decomposable elements (prime
and sub scopes disjoint), smooth elements (all elements of one decision
share one scope) and determinism (elements pairwise unsatisfiable
together). -/
def SddSem (body : List Line) (v : Nat) : Prop :=
  ∀ i, i < body.length → (lineAt body i).tag = "D" →
    (∀ pr ∈ elemRefs (lineAt body i),
      Disjoint (scopeS body (resIdx body i pr.1))
        (scopeS body (resIdx body i pr.2))) ∧
    (∀ pr1 ∈ elemRefs (lineAt body i), ∀ pr2 ∈ elemRefs (lineAt body i),
      elemScope body i pr1 = elemScope body i pr2) ∧
    (elemRefs (lineAt body i)).Pairwise (fun a b => ∀ f : Fin v → Bool,
      ¬(elemDen body v i a f = true ∧ elemDen body v i b f = true))

/-- The node id defined by body line `j` (junk `0` if none). -/
def idOf (body : List Line) (j : Nat) : Int :=
  (defId (lineAt body j)).getD 0

/-- The slot invariant for SDD evaluation: the slot of the id defined at
line `j` holds the scaled assignment count of line `j`'s function. -/
def SlotInvS (body : List Line) (v : Nat) (wmc : List (Option ℚ))
    (j : Nat) : Prop :=
  ∃ w : ℚ, wmc[(idOf body j).toNat]? = some (some w) ∧
    (cnt v (fun f => denS body v f j) : ℚ) * 2 ^ (scopeS body j).card =
      w * 2 ^ v

/-- Defining line of the root node id `0` (junk `0` when missing). -/
def rootIdx (body : List Line) : Nat := (defIdx body 0).getD 0

/-- Number of satisfying assignments of the function encoded by the root
node (id `0`) of an SDD file, over `v` variables. -/
def sddModelCount (body : List Line) (v : Nat) : ℕ :=
  cnt v (fun f => denS body v f (rootIdx body))

instance (body : List Line) (n : Int) (v : Nat) :
    Decidable (SddWF body n v) := by
  unfold SddWF
  exact @instDecidableAnd _ _
    (@Nat.decidableBallLT body.length _ (fun i h => inferInstance))
    (@Nat.decidableBallLT body.length _ (fun i h =>
      @Nat.decidableBallLT body.length _ (fun j h2 => inferInstance)))

instance (body : List Line) (v : Nat) : Decidable (SddSem body v) := by
  unfold SddSem
  exact @Nat.decidableBallLT body.length _ (fun i h => inferInstance)

/-! ## Theorems -/

/-! ## Helper lemmas about the Python list primitives -/
theorem pyIdx_nat {len i : Nat} (h : i < len) : pyIdx len (i : Int) = some i := by
  simp [pyIdx, h]

theorem pyGet_nat {α : Type} {xs : List α} {i : Nat} {a : α}
    (h : xs[i]? = some a) : pyGet xs (i : Int) = .ok a := by
  have hlen : i < xs.length := by
    by_contra hc
    rw [List.getElem?_eq_none (by omega)] at h
    exact Option.noConfusion h
  simp [pyGet, pyIdx_nat hlen, h]

theorem pyGet_int {α : Type} {xs : List α} {c : Int} {a : α}
    (hc : 0 ≤ c) (h : xs[c.toNat]? = some a) : pyGet xs c = .ok a := by
  have := pyGet_nat h
  rwa [Int.toNat_of_nonneg hc] at this

theorem pySet_nat {α : Type} {xs : List α} {i : Nat} (h : i < xs.length)
    (a : α) : pySet xs (i : Int) a = .ok (xs.set i a) := by
  simp [pySet, pyIdx_nat h]

theorem pySet_int {α : Type} {xs : List α} {c : Int} (hc : 0 ≤ c)
    (h : c.toNat < xs.length) (a : α) :
    pySet xs c a = .ok (xs.set c.toNat a) := by
  have := pySet_nat h a
  rwa [Int.toNat_of_nonneg hc] at this

theorem pyGet_neg_one {α : Type} {xs : List α} {a : α}
    (h : xs[xs.length - 1]? = some a) : pyGet xs (-1) = .ok a := by
  have hlen : xs.length - 1 < xs.length := by
    by_contra hc
    rw [List.getElem?_eq_none (by omega)] at h
    exact Option.noConfusion h
  have h0 : 0 < xs.length := by omega
  have h1 : pyIdx xs.length (-1) = some (xs.length - 1) := by
    simp only [pyIdx]
    rw [if_neg (by omega : ¬ (0:Int) ≤ -1)]
    rw [if_pos (by constructor <;> omega)]
    congr 1
    omega
  simp [pyGet, h1, h]

/-- Setting a slot to the value it already holds is the identity. -/
theorem set_self_of_getElem? {α : Type} {xs : List α} {i : Nat} {a : α}
    (h : xs[i]? = some a) : xs.set i a = xs := by
  apply List.ext_getElem?
  intro n
  by_cases hn : i = n
  · subst hn
    rw [List.getElem?_set_self (by
      by_contra hc
      rw [List.getElem?_eq_none (by omega)] at h
      exact Option.noConfusion h)]
    exact h.symm
  · exact List.getElem?_set_ne hn

/-- The accumulation loop computes `op`-folds over the referenced child
slots: if the child columns starting at `args[off + i]` hold the refs `cs`
(all valid, assigned, and distinct from the target slot `ln`), the loop
left-folds their values into slot `ln`. -/
theorem accLoop_spec (op : ℚ → ℚ → ℚ) (ln : Nat) (args : List Int)
    (off : Nat) (W : Int → ℚ) :
    ∀ (cs : List Int) (i : Nat) (wmc : List (Option ℚ)) (a : ℚ),
      wmc[ln]? = some (some a) →
      (∀ t, t < cs.length → args[off + (i + t)]? = cs[t]?) →
      (∀ c ∈ cs, 0 ≤ c ∧ c.toNat ≠ ln ∧
        wmc[c.toNat]? = some (some (W c))) →
      accLoop op (ln : Int) args off i cs.length wmc =
        .ok (wmc.set ln (some (List.foldl op a (cs.map W))))
  | [], i, wmc, a, hcur, _, _ => by
    simp only [List.length_nil, accLoop, List.map_nil, List.foldl_nil]
    rw [set_self_of_getElem? hcur]
  | c :: cs, i, wmc, a, hcur, hargs, hkids => by
    have hln : ln < wmc.length := by
      by_contra hc
      rw [List.getElem?_eq_none (by omega)] at hcur
      exact Option.noConfusion hcur
    obtain ⟨hc0, hcne, hcval⟩ := hkids c (List.mem_cons_self c cs)
    have harg0 : args[off + i]? = some c := by
      have := hargs 0 (by simp)
      simpa using this
    have hrec := accLoop_spec op ln args off W cs (i + 1)
      (wmc.set ln (some (op a (W c)))) (op a (W c))
      (by rw [List.getElem?_set_self (by simpa using hln)])
      (by
        intro t ht
        have := hargs (t + 1) (by simpa using Nat.succ_lt_succ ht)
        rw [show off + (i + 1 + t) = off + (i + (t + 1)) by omega]
        simpa using this)
      (by
        intro d hd
        obtain ⟨hd0, hdne, hdval⟩ := hkids d (List.mem_cons_of_mem c hd)
        refine ⟨hd0, hdne, ?_⟩
        rw [List.getElem?_set_ne (fun hne => hdne hne.symm)]
        exact hdval)
    simp only [List.length_cons, accLoop, listN, harg0,
      pyGet_nat hcur, pyGet_int hc0 hcval, pySet_nat hln (some (op a (W c)))]
    rw [hrec]
    simp [List.set_set]

/-- The `D`-line loop sums `wmc[p]*wmc[s]` over the element pairs. -/
theorem sddDLoop_spec (wmc : List (Option ℚ)) (elmts : List Int)
    (WP WS : Nat → ℚ) :
    ∀ (rem idx : Nat) (w : ℚ),
      (∀ j, idx ≤ j → j < idx + rem → ∃ p s,
        elmts[2*j]? = some p ∧ elmts[2*j+1]? = some s ∧ 0 ≤ p ∧ 0 ≤ s ∧
        wmc[p.toNat]? = some (some (WP j)) ∧ wmc[s.toNat]? = some (some (WS j))) →
      sddDLoop wmc elmts idx rem w =
        .ok (w + ∑ j in Finset.range rem, WP (idx + j) * WS (idx + j))
  | 0, idx, w, _ => by simp [sddDLoop]
  | rem + 1, idx, w, hpairs => by
    obtain ⟨p, s, hp, hs, hp0, hs0, hpw, hsw⟩ :=
      hpairs idx (le_refl idx) (by omega)
    have hrec := sddDLoop_spec wmc elmts WP WS rem (idx + 1)
      (w + WP idx * WS idx)
      (fun j hj1 hj2 => hpairs j (by omega) (by omega))
    simp only [sddDLoop, listN, hp, hs, pyGet_int hp0 hpw, pyGet_int hs0 hsw]
    rw [hrec]
    rw [Finset.sum_range_succ']
    simp only [Nat.add_zero]
    have hshift : ∀ j, idx + 1 + j = idx + (j + 1) := by omega
    rw [Finset.sum_congr rfl (fun j _ => by rw [hshift j])]
    congr 1
    ring

theorem foldl_mul_eq (a : ℚ) (l : List ℚ) : l.foldl (· * ·) a = a * l.prod := by
  induction l generalizing a with
  | nil => simp
  | cons x xs ih => simp [ih, mul_assoc]

theorem foldl_add_eq (a : ℚ) (l : List ℚ) : l.foldl (· + ·) a = a + l.sum := by
  induction l generalizing a with
  | nil => simp
  | cons x xs ih => simp [ih, add_assoc]

/-- The `O` loop never reads the head column of `args` (offset 2 skips the
unused `j` field and the count), so the head is irrelevant. -/
theorem accLoop_head_irrel (op : ℚ → ℚ → ℚ) (ln : Int) (x y : Int)
    (rest : List Int) :
    ∀ (rem i : Nat) (wmc : List (Option ℚ)),
      accLoop op ln (x :: rest) 2 i rem wmc =
        accLoop op ln (y :: rest) 2 i rem wmc := by
  intro rem
  induction rem with
  | zero => intro i wmc; rfl
  | succ rem ih =>
    intro i wmc
    have hx : listN (x :: rest) (2 + i) = listN (y :: rest) (2 + i) := by
      simp [listN, show 2 + i = (1 + i) + 1 by omega]
    simp only [accLoop, hx]
    repeat' split
    all_goals first | rfl | apply ih

theorem pySet_ok_length {α : Type} {xs ys : List α} {i : Int} {a : α}
    (h : pySet xs i a = .ok ys) : ys.length = xs.length := by
  unfold pySet at h
  cases hidx : pyIdx xs.length i with
  | none => rw [hidx] at h; exact Except.noConfusion h
  | some n =>
    rw [hidx] at h
    cases h
    exact List.length_set xs n a

theorem accLoop_ok_length {op : ℚ → ℚ → ℚ} {ln : Int} {args : List Int}
    {off : Nat} :
    ∀ {rem i : Nat} {wmc wmc2 : List (Option ℚ)},
      accLoop op ln args off i rem wmc = .ok wmc2 → wmc2.length = wmc.length := by
  intro rem
  induction rem with
  | zero => intro i wmc wmc2 h; cases h; rfl
  | succ rem ih =>
    intro i wmc wmc2 h
    unfold accLoop at h
    cases hc : listN args (off + i) with
    | error e => simp only [hc] at h; exact Except.noConfusion h
    | ok c =>
      simp only [hc] at h
      cases hcur : pyGet wmc ln with
      | error e => simp only [hcur] at h; exact Except.noConfusion h
      | ok cur =>
        simp only [hcur] at h
        cases hcv : pyGet wmc c with
        | error e => simp only [hcv] at h; exact Except.noConfusion h
        | ok cv =>
          simp only [hcv] at h
          cases cur with
          | none => cases cv <;> (simp only [] at h; exact Except.noConfusion h)
          | some a =>
            cases cv with
            | none => simp only [] at h; exact Except.noConfusion h
            | some b =>
              cases hset : pySet wmc ln (some (op a b)) with
              | error e => simp only [hset] at h; exact Except.noConfusion h
              | ok wmcM =>
                simp only [hset] at h
                exact (ih h).trans (pySet_ok_length hset)

/-! ## Step-unfolding lemmas (one per leading tag) -/
theorem nnfStep_c (weights : List (Int × ℚ)) (st : NnfSt) (args : List Int) :
    nnfStep weights st ⟨"c", args⟩ = .ok st := rfl

theorem nnfStep_header (weights : List (Int × ℚ)) (st : NnfSt) (n : Int)
    (rest : List Int) :
    nnfStep weights st ⟨"nnf", n :: rest⟩ =
      .ok ⟨List.replicate n.toNat none, st.ln, true⟩ := by
  simp only [nnfStep, argN]
  simp

theorem nnfStep_noheader (weights : List (Int × ℚ)) (st : NnfSt) (l : Line)
    (hdet : st.detected = false) (hc : l.tag ≠ "c") (hn : l.tag ≠ "nnf") :
    nnfStep weights st l = .error (.exc "An NNF file should start with nnf") := by
  simp [nnfStep, hdet, hc, hn]

theorem nnfStep_L (weights : List (Int × ℚ)) (st : NnfSt) (lit : Int)
    (rest : List Int) (hdet : st.detected = true) :
    nnfStep weights st ⟨"L", lit :: rest⟩ =
      match pySet st.wmc (st.ln : Int) (some ((lookupW weights lit).getD 1)) with
      | .error e => .error e
      | .ok wmc2 => .ok ⟨wmc2, st.ln + 1, true⟩ := by
  obtain ⟨wmc, ln, det⟩ := st
  subst hdet
  simp only [nnfStep, argN]
  simp only [List.getElem?_cons_zero]
  simp
  cases h : lookupW weights lit <;> simp [Option.getD]

theorem nnfStep_A (weights : List (Int × ℚ)) (st : NnfSt) (k : Int)
    (cs : List Int) (hdet : st.detected = true) :
    nnfStep weights st ⟨"A", k :: cs⟩ =
      match pySet st.wmc (st.ln : Int) (some 1) with
      | .error e => .error e
      | .ok wmc1 =>
        match accLoop (· * ·) (st.ln : Int) (k :: cs) 1 0 k.toNat wmc1 with
        | .error e => .error e
        | .ok wmc2 => .ok ⟨wmc2, st.ln + 1, true⟩ := by
  obtain ⟨wmc, ln, det⟩ := st
  subst hdet
  simp only [nnfStep, argN]
  simp

theorem nnfStep_O (weights : List (Int × ℚ)) (st : NnfSt) (j k : Int)
    (cs : List Int) (hdet : st.detected = true) :
    nnfStep weights st ⟨"O", j :: k :: cs⟩ =
      match pySet st.wmc (st.ln : Int) (some 0) with
      | .error e => .error e
      | .ok wmc1 =>
        match accLoop (· + ·) (st.ln : Int) (j :: k :: cs) 2 0 k.toNat wmc1 with
        | .error e => .error e
        | .ok wmc2 => .ok ⟨wmc2, st.ln + 1, true⟩ := by
  obtain ⟨wmc, ln, det⟩ := st
  subst hdet
  simp only [nnfStep, argN]
  simp

theorem nnfStep_other (weights : List (Int × ℚ)) (st : NnfSt) (l : Line)
    (hdet : st.detected = true) (hc : l.tag ≠ "c") (hn : l.tag ≠ "nnf")
    (hL : l.tag ≠ "L") (hA : l.tag ≠ "A") (hO : l.tag ≠ "O") :
    nnfStep weights st l = .ok ⟨st.wmc, st.ln + 1, true⟩ := by
  obtain ⟨wmc, ln, det⟩ := st
  subst hdet
  simp [nnfStep, hc, hn, hL, hA, hO]

theorem sddStep_c (weights : List (Int × ℚ)) (st : SddSt) (args : List Int) :
    sddStep weights st ⟨"c", args⟩ = .ok st := rfl

theorem sddStep_header (weights : List (Int × ℚ)) (st : SddSt) (n : Int)
    (rest : List Int) :
    sddStep weights st ⟨"sdd", n :: rest⟩ =
      .ok ⟨List.replicate n.toNat none, st.ln, true⟩ := by
  simp only [sddStep, argN]
  simp

theorem sddStep_noheader (weights : List (Int × ℚ)) (st : SddSt) (l : Line)
    (hdet : st.detected = false) (hc : l.tag ≠ "c") (hn : l.tag ≠ "sdd") :
    sddStep weights st l = .error (.exc "An SDD file should start with sdd") := by
  simp [sddStep, hdet, hc, hn]

theorem sddStep_L (weights : List (Int × ℚ)) (st : SddSt) (id vt lit : Int)
    (rest : List Int) (hdet : st.detected = true) :
    sddStep weights st ⟨"L", id :: vt :: lit :: rest⟩ =
      match pySet st.wmc id (some ((lookupW weights lit).getD 1)) with
      | .error e => .error e
      | .ok wmc2 => .ok ⟨wmc2, st.ln + 1, true⟩ := by
  obtain ⟨wmc, ln, det⟩ := st
  subst hdet
  simp only [sddStep, argN]
  simp
  cases h : lookupW weights lit <;> simp [Option.getD]

theorem sddStep_F (weights : List (Int × ℚ)) (st : SddSt) (id : Int)
    (rest : List Int) (hdet : st.detected = true) :
    sddStep weights st ⟨"F", id :: rest⟩ =
      match pySet st.wmc id (some 0) with
      | .error e => .error e
      | .ok wmc2 => .ok ⟨wmc2, st.ln + 1, true⟩ := by
  obtain ⟨wmc, ln, det⟩ := st
  subst hdet
  simp only [sddStep, argN]
  simp

theorem sddStep_T (weights : List (Int × ℚ)) (st : SddSt) (id : Int)
    (rest : List Int) (hdet : st.detected = true) :
    sddStep weights st ⟨"T", id :: rest⟩ =
      match pySet st.wmc id (some 1) with
      | .error e => .error e
      | .ok wmc2 => .ok ⟨wmc2, st.ln + 1, true⟩ := by
  obtain ⟨wmc, ln, det⟩ := st
  subst hdet
  simp only [sddStep, argN]
  simp

theorem sddStep_D (weights : List (Int × ℚ)) (st : SddSt) (id vt nb : Int)
    (rest : List Int) (hdet : st.detected = true) :
    sddStep weights st ⟨"D", id :: vt :: nb :: rest⟩ =
      match sddDLoop st.wmc rest 0 nb.toNat 0 with
      | .error e => .error e
      | .ok w =>
        match pySet st.wmc id (some w) with
        | .error e => .error e
        | .ok wmc2 => .ok ⟨wmc2, st.ln + 1, true⟩ := by
  obtain ⟨wmc, ln, det⟩ := st
  subst hdet
  simp only [sddStep, argN]
  simp

theorem sddStep_other (weights : List (Int × ℚ)) (st : SddSt) (l : Line)
    (hdet : st.detected = true) (hc : l.tag ≠ "c") (hn : l.tag ≠ "sdd")
    (hL : l.tag ≠ "L") (hF : l.tag ≠ "F") (hT : l.tag ≠ "T") (hD : l.tag ≠ "D") :
    sddStep weights st l = .ok ⟨st.wmc, st.ln + 1, true⟩ := by
  obtain ⟨wmc, ln, det⟩ := st
  subst hdet
  simp [sddStep, hc, hn, hL, hF, hT, hD]

/-! ## Claims C1, C2, C3, C5 -/
/-- C2: an `L <lit>` line of an NNF file assigns to the current slot the
table weight of `lit` when the literal is a key of the table and `1.0`
otherwise; a missing key is not an error.  In particular the two-line file
`nnf 1 0 1` / `L 1` evaluates to `1.0` with the empty table and to `0.3`
with the table mapping literal 1 to 0.3. -/
theorem c2_literal_default :
    (∀ (weights : List (Int × ℚ)) (st : NnfSt) (lit : Int) (rest : List Int),
      st.detected = true → st.ln < st.wmc.length →
      nnfStep weights st ⟨"L", lit :: rest⟩ =
        .ok ⟨st.wmc.set st.ln (some ((lookupW weights lit).getD 1)),
             st.ln + 1, true⟩) ∧
    nnf_file_wmc [⟨"nnf", [1, 0, 1]⟩, ⟨"L", [1]⟩] [] = .ok (some 1) ∧
    nnf_file_wmc [⟨"nnf", [1, 0, 1]⟩, ⟨"L", [1]⟩] [(1, 3/10)] =
      .ok (some (3/10)) := by
  refine ⟨?_, by decide, by with_unfolding_all decide⟩
  intro weights st lit rest hdet hln
  rw [nnfStep_L weights st lit rest hdet]
  simp only [pySet_nat hln]

/-- Witness for the hypotheses of the first conjunct of C2. -/
theorem c2_witness :
    nnfStep [] ⟨[none], 0, true⟩ ⟨"L", [1]⟩ =
      .ok ⟨[none].set 0 (some ((lookupW [] 1).getD 1)), 0 + 1, true⟩ :=
  c2_literal_default.1 [] ⟨[none], 0, true⟩ 1 [] rfl (by decide)

/-- C3: an `A <k> <c1..ck>` line assigns the product of the child slots
(1 when `k = 0`), an `O <j> <k> <c1..ck>` line assigns the sum of the
child slots (0 when `k = 0`), and the result of an `O` line does not
depend on its leading `j` column. -/
theorem c3_and_or_lines :
    (∀ (weights : List (Int × ℚ)) (st : NnfSt) (k : Int) (cs : List Int)
        (W : Int → ℚ),
      st.detected = true → st.ln < st.wmc.length → k.toNat ≤ cs.length →
      (∀ c ∈ cs.take k.toNat, 0 ≤ c ∧ c.toNat ≠ st.ln ∧
        st.wmc[c.toNat]? = some (some (W c))) →
      nnfStep weights st ⟨"A", k :: cs⟩ =
        .ok ⟨st.wmc.set st.ln (some (((cs.take k.toNat).map W).prod)),
             st.ln + 1, true⟩) ∧
    (∀ (weights : List (Int × ℚ)) (st : NnfSt) (j k : Int) (cs : List Int)
        (W : Int → ℚ),
      st.detected = true → st.ln < st.wmc.length → k.toNat ≤ cs.length →
      (∀ c ∈ cs.take k.toNat, 0 ≤ c ∧ c.toNat ≠ st.ln ∧
        st.wmc[c.toNat]? = some (some (W c))) →
      nnfStep weights st ⟨"O", j :: k :: cs⟩ =
        .ok ⟨st.wmc.set st.ln (some (((cs.take k.toNat).map W).sum)),
             st.ln + 1, true⟩) ∧
    (∀ (weights : List (Int × ℚ)) (st : NnfSt) (j j2 : Int) (rest : List Int),
      nnfStep weights st ⟨"O", j :: rest⟩ = nnfStep weights st ⟨"O", j2 :: rest⟩) := by
  refine ⟨?_, ?_, ?_⟩
  · intro weights st k cs W hdet hln hkle hkids
    have htake : (cs.take k.toNat).length = k.toNat := by
      simp [List.length_take, Nat.min_eq_left hkle]
    have hloop := accLoop_spec (· * ·) st.ln (k :: cs) 1 W (cs.take k.toNat) 0
      (st.wmc.set st.ln (some 1)) 1
      (by rw [List.getElem?_set_self (by simpa using hln)])
      (by
        intro t ht
        rw [htake] at ht
        rw [show (1 + (0 + t)) = t + 1 by omega, List.getElem?_cons_succ,
          List.getElem?_take_of_lt ht])
      (by
        intro c hc
        obtain ⟨h0, hne, hval⟩ := hkids c hc
        exact ⟨h0, hne, by
          rw [List.getElem?_set_ne (fun h => hne h.symm)]; exact hval⟩)
    rw [htake] at hloop
    rw [nnfStep_A weights st k cs hdet]
    simp only [pySet_nat hln, hloop]
    rw [foldl_mul_eq, one_mul, List.set_set]
  · intro weights st j k cs W hdet hln hkle hkids
    have htake : (cs.take k.toNat).length = k.toNat := by
      simp [List.length_take, Nat.min_eq_left hkle]
    have hloop := accLoop_spec (· + ·) st.ln (j :: k :: cs) 2 W (cs.take k.toNat) 0
      (st.wmc.set st.ln (some 0)) 0
      (by rw [List.getElem?_set_self (by simpa using hln)])
      (by
        intro t ht
        rw [htake] at ht
        rw [show (2 + (0 + t)) = (t + 1) + 1 by omega, List.getElem?_cons_succ,
          List.getElem?_cons_succ, List.getElem?_take_of_lt ht])
      (by
        intro c hc
        obtain ⟨h0, hne, hval⟩ := hkids c hc
        exact ⟨h0, hne, by
          rw [List.getElem?_set_ne (fun h => hne h.symm)]; exact hval⟩)
    rw [htake] at hloop
    rw [nnfStep_O weights st j k cs hdet]
    simp only [pySet_nat hln, hloop]
    rw [foldl_add_eq, zero_add, List.set_set]
  · intro weights st j j2 rest
    cases hdet : st.detected with
    | false =>
      rw [nnfStep_noheader weights st ⟨"O", j :: rest⟩ hdet (by simp) (by simp),
        nnfStep_noheader weights st ⟨"O", j2 :: rest⟩ hdet (by simp) (by simp)]
    | true =>
      cases rest with
      | nil =>
        obtain ⟨wmc, ln, det⟩ := st
        subst hdet
        rfl
      | cons k cs =>
        rw [nnfStep_O weights st j k cs hdet, nnfStep_O weights st j2 k cs hdet]
        simp only [accLoop_head_irrel (· + ·) (st.ln : Int) j j2 (k :: cs)]

/-- Witness for the hypotheses of C3 (an `A 1 0` line over a one-slot
assigned array). -/
theorem c3_witness :
    nnfStep [] ⟨[some (1/2), none], 1, true⟩ ⟨"A", [1, 0]⟩ =
      .ok ⟨[some (1/2), none].set 1 (some ((([0].take (1:Int).toNat).map
        (fun _ => (1/2 : ℚ))).prod)), 1 + 1, true⟩ :=
  c3_and_or_lines.1 [] ⟨[some (1/2), none], 1, true⟩ 1 [0] (fun _ => (1/2 : ℚ))
    rfl (by decide) (by decide)
    (by
      intro c hc
      have hc0 : c = 0 := by
        simpa using hc
      subst hc0
      exact ⟨le_refl 0, by decide, by with_unfolding_all decide⟩)

/-- C1: a `D <id> <vtreeId> <k> <p1> <s1> ...` line of an SDD file assigns
to node `id` the sum over the `k` elements of `wmc[pi] * wmc[si]`,
computed from the already-assigned weights of the referenced ids; and in
Scenario 3 (literal node 0 with weight 0.4, literal node 1 defaulting to
1.0, decision node 2 with elements (0,1) and (1,0)) the decision node
receives weight 0.4*1.0 + 1.0*0.4 = 0.8. -/
theorem c1_decision_weight :
    (∀ (weights : List (Int × ℚ)) (st : SddSt) (id vt nb : Int)
        (rest : List Int) (WP WS : Nat → ℚ),
      st.detected = true → 0 ≤ id → id.toNat < st.wmc.length →
      (∀ j, j < nb.toNat → ∃ p s,
        rest[2*j]? = some p ∧ rest[2*j+1]? = some s ∧ 0 ≤ p ∧ 0 ≤ s ∧
        st.wmc[p.toNat]? = some (some (WP j)) ∧
        st.wmc[s.toNat]? = some (some (WS j))) →
      sddStep weights st ⟨"D", id :: vt :: nb :: rest⟩ =
        .ok ⟨st.wmc.set id.toNat
          (some (∑ j in Finset.range nb.toNat, WP j * WS j)), st.ln + 1, true⟩) ∧
    sddRun [(1, 2/5)]
      [⟨"sdd", [3]⟩, ⟨"L", [0, 0, 1]⟩, ⟨"L", [1, 0, -1]⟩, ⟨"D", [2, 0, 2, 0, 1, 1, 0]⟩]
      = .ok ⟨[some (2/5), some 1, some (4/5)], 3, true⟩ := by
  refine ⟨?_, by with_unfolding_all decide⟩
  intro weights st id vt nb rest WP WS hdet hid0 hidlt hpairs
  have hloop := sddDLoop_spec st.wmc rest WP WS nb.toNat 0 0
    (fun j hj1 hj2 => hpairs j (by omega))
  rw [sddStep_D weights st id vt nb rest hdet]
  simp only [hloop, pySet_int hid0 hidlt]
  simp only [Nat.zero_add, zero_add]

/-- Witness for the hypotheses of C1 (a decision over two assigned ids). -/
theorem c1_witness :
    sddStep [] ⟨[some (2/5), some 1, none], 2, true⟩ ⟨"D", [2, 0, 2, 0, 1, 1, 0]⟩ =
      .ok ⟨[some (2/5), some 1, none].set 2
        (some (∑ j in Finset.range (2:Int).toNat,
          (fun t => if t = 0 then (2/5 : ℚ) else 1) j *
          (fun t => if t = 0 then (1 : ℚ) else 2/5) j)), 2 + 1, true⟩ :=
  c1_decision_weight.1 [] ⟨[some (2/5), some 1, none], 2, true⟩ 2 0 2 [0, 1, 1, 0]
    (fun t => if t = 0 then (2/5 : ℚ) else 1)
    (fun t => if t = 0 then (1 : ℚ) else 2/5)
    rfl (by decide) (by decide)
    (by
      intro j hj
      have hj2 : j < 2 := by omega
      interval_cases j
      · exact ⟨0, 1, by decide, by decide, by decide, by decide,
          by with_unfolding_all decide, by with_unfolding_all decide⟩
      · exact ⟨1, 0, by decide, by decide, by decide, by decide,
          by with_unfolding_all decide, by with_unfolding_all decide⟩)

/-- C5: `sdd_file_wmc` returns the weight slot of node id 0; a `T` line
assigns weight 1.0 and an `F` line assigns weight 0.0; in particular for
any weight table, `sdd 1` / `T 0` evaluates to 1.0 and `sdd 1` / `F 0`
evaluates to 0.0. -/
theorem c5_root_terminals :
    (∀ (lines : List Line) (weights : List (Int × ℚ)) (st : SddSt)
        (q : Option ℚ),
      sddRun weights lines = .ok st → st.wmc[(0:Nat)]? = some q →
      sdd_file_wmc lines weights = .ok q) ∧
    (∀ (weights : List (Int × ℚ)) (st : SddSt) (id : Int) (rest : List Int),
      st.detected = true → 0 ≤ id → id.toNat < st.wmc.length →
      sddStep weights st ⟨"T", id :: rest⟩ =
        .ok ⟨st.wmc.set id.toNat (some 1), st.ln + 1, true⟩) ∧
    (∀ (weights : List (Int × ℚ)) (st : SddSt) (id : Int) (rest : List Int),
      st.detected = true → 0 ≤ id → id.toNat < st.wmc.length →
      sddStep weights st ⟨"F", id :: rest⟩ =
        .ok ⟨st.wmc.set id.toNat (some 0), st.ln + 1, true⟩) ∧
    (∀ weights : List (Int × ℚ),
      sdd_file_wmc [⟨"sdd", [1]⟩, ⟨"T", [0]⟩] weights = .ok (some 1)) ∧
    (∀ weights : List (Int × ℚ),
      sdd_file_wmc [⟨"sdd", [1]⟩, ⟨"F", [0]⟩] weights = .ok (some 0)) := by
  refine ⟨?_, ?_, ?_, fun weights => rfl, fun weights => rfl⟩
  · intro lines weights st q hrun hq
    simp only [sdd_file_wmc, hrun]
    have := pyGet_nat hq
    simpa using this
  · intro weights st id rest hdet hid0 hidlt
    rw [sddStep_T weights st id rest hdet]
    simp only [pySet_int hid0 hidlt]
  · intro weights st id rest hdet hid0 hidlt
    rw [sddStep_F weights st id rest hdet]
    simp only [pySet_int hid0 hidlt]

/-- Witness for the hypotheses of C5. -/
theorem c5_witness :
    sdd_file_wmc [⟨"sdd", [1]⟩, ⟨"T", [0]⟩] [] = .ok (some 1) :=
  c5_root_terminals.1 [⟨"sdd", [1]⟩, ⟨"T", [0]⟩] [] ⟨[some 1], 1, true⟩ (some 1)
    (by decide) (by decide)

/-! ## Claims C4 and C6 -/
theorem okShape {wmc : List (Option ℚ)} {i : Int} {a : Option ℚ} {ln : Nat}
    {st2 : NnfSt}
    (h : ((match pySet wmc i a with
          | .error e => .error e
          | .ok wmc2 => .ok (⟨wmc2, ln, true⟩ : NnfSt)) : Except PyErr NnfSt)
          = .ok st2) :
    st2.ln = ln ∧ st2.wmc.length = wmc.length ∧ st2.detected = true := by
  cases hset : pySet wmc i a with
  | error e => rw [hset] at h; exact Except.noConfusion h
  | ok wmc2 =>
    rw [hset] at h
    dsimp only at h
    injection h with h2
    subst h2
    exact ⟨rfl, pySet_ok_length hset, rfl⟩

theorem okLoopShape {wmc : List (Option ℚ)} {i : Int} {a : Option ℚ}
    {op : ℚ → ℚ → ℚ} {args : List Int} {off n : Nat} {ln : Nat} {st2 : NnfSt}
    (h : ((match pySet wmc i a with
          | .error e => .error e
          | .ok wmc1 =>
            match accLoop op i args off 0 n wmc1 with
            | .error e => .error e
            | .ok wmc2 => .ok (⟨wmc2, ln, true⟩ : NnfSt)) : Except PyErr NnfSt)
          = .ok st2) :
    st2.ln = ln ∧ st2.wmc.length = wmc.length ∧ st2.detected = true := by
  cases hset : pySet wmc i a with
  | error e => rw [hset] at h; exact Except.noConfusion h
  | ok wmc1 =>
    rw [hset] at h
    dsimp only at h
    cases hloop : accLoop op i args off 0 n wmc1 with
    | error e => rw [hloop] at h; exact Except.noConfusion h
    | ok wmc2 =>
      rw [hloop] at h
      dsimp only at h
      injection h with h2
      subst h2
      exact ⟨rfl, (accLoop_ok_length hloop).trans (pySet_ok_length hset), rfl⟩

/-- A successful step on a non-comment, non-header line advances `ln` by
one, preserves the weight-array length, and keeps the header flag. -/
theorem nnfStep_ok_shape {weights : List (Int × ℚ)} {st st2 : NnfSt} {l : Line}
    (hdet : st.detected = true) (hc : l.tag ≠ "c") (hn : l.tag ≠ "nnf")
    (h : nnfStep weights st l = .ok st2) :
    st2.ln = st.ln + 1 ∧ st2.wmc.length = st.wmc.length ∧
      st2.detected = true := by
  unfold nnfStep at h
  rw [if_neg hc, if_neg hn, if_neg (by simp [hdet])] at h
  by_cases hL : l.tag = "L"
  · rw [if_pos hL] at h
    cases harg : argN l 0 with
    | error e => simp only [harg] at h; exact Except.noConfusion h
    | ok lit =>
      simp only [harg] at h
      exact okShape h
  · rw [if_neg hL] at h
    by_cases hA : l.tag = "A"
    · rw [if_pos hA] at h
      cases harg : argN l 0 with
      | error e => simp only [harg] at h; exact Except.noConfusion h
      | ok k =>
        simp only [harg] at h
        exact okLoopShape h
    · rw [if_neg hA] at h
      by_cases hO : l.tag = "O"
      · rw [if_pos hO] at h
        cases harg : argN l 1 with
        | error e => simp only [harg] at h; exact Except.noConfusion h
        | ok k =>
          simp only [harg] at h
          exact okLoopShape h
      · rw [if_neg hO] at h
        cases h
        exact ⟨rfl, rfl, hdet⟩

/-- Running a comment-free, header-free body advances `ln` by the number
of lines and preserves the array length. -/
theorem nnfRunFrom_shape {weights : List (Int × ℚ)} :
    ∀ {bs : List Line} {st st2 : NnfSt},
      nnfRunFrom weights st bs = .ok st2 → st.detected = true →
      (∀ b ∈ bs, b.tag ≠ "c" ∧ b.tag ≠ "nnf") →
      st2.ln = st.ln + bs.length ∧ st2.wmc.length = st.wmc.length ∧
        st2.detected = true := by
  intro bs
  induction bs with
  | nil =>
    intro st st2 h hdet htags
    cases h
    exact ⟨by simp, rfl, hdet⟩
  | cons b bs ih =>
    intro st st2 h hdet htags
    unfold nnfRunFrom at h
    cases hstep : nnfStep weights st b with
    | error e => simp only [hstep] at h; exact Except.noConfusion h
    | ok stm =>
      simp only [hstep] at h
      have hb := htags b (List.mem_cons_self b bs)
      have hs := nnfStep_ok_shape hdet hb.1 hb.2 hstep
      have hr := ih h hs.2.2 (fun b2 hb2 => htags b2 (List.mem_cons_of_mem b hb2))
      refine ⟨?_, hr.2.1.trans hs.2.1, hr.2.2⟩
      rw [hr.1, hs.1]
      simp [List.length_cons]
      omega

/-- C4 (amended): `nnf_file_wmc` returns the contents of the final slot of
the weight array (index nodeCount-1); when the body consists of exactly
nodeCount non-comment, non-header lines, the final `ln` is nodeCount, so
that final slot is the slot consumed by the last processed body line (the
root by the format convention).  (The unamended claim fails when the body
has fewer lines than the declared node count: see the counterexample.) -/
theorem c4_last_slot :
    ∀ (weights : List (Int × ℚ)) (n e vv : Int) (bs : List Line) (st : NnfSt),
      bs.length = n.toNat → 0 < n.toNat →
      (∀ b ∈ bs, b.tag ≠ "c" ∧ b.tag ≠ "nnf") →
      nnfRun weights (⟨"nnf", [n, e, vv]⟩ :: bs) = .ok st →
      st.ln = n.toNat ∧ st.wmc.length = n.toNat ∧
      nnf_file_wmc (⟨"nnf", [n, e, vv]⟩ :: bs) weights =
        .ok (st.wmc.getD (n.toNat - 1) none) := by
  intro weights n e vv bs st hlen hpos htags hrun
  have hfirst : nnfStep weights ⟨[], 0, false⟩ ⟨"nnf", [n, e, vv]⟩ =
      .ok ⟨List.replicate n.toNat none, 0, true⟩ :=
    nnfStep_header weights ⟨[], 0, false⟩ n [e, vv]
  rw [nnfRun] at hrun
  unfold nnfRunFrom at hrun
  simp only [hfirst] at hrun
  have hs := nnfRunFrom_shape hrun rfl htags
  have hln : st.ln = n.toNat := by
    rw [hs.1, hlen]
    simp
  have hwl : st.wmc.length = n.toNat := by
    rw [hs.2.1]
    simp
  refine ⟨hln, hwl, ?_⟩
  simp only [nnf_file_wmc, nnfRun]
  unfold nnfRunFrom
  simp only [hfirst, hrun]
  cases hx : st.wmc[n.toNat - 1]? with
  | none =>
    exfalso
    rw [List.getElem?_eq_none_iff] at hx
    omega
  | some x =>
    have hneg : pyGet st.wmc (-1) = .ok x := by
      apply pyGet_neg_one
      rw [hwl]
      exact hx
    rw [hneg, List.getD_eq_getElem?_getD, hx]
    rfl

/-- Witness for the hypotheses of C4 (a header-matched two-line file). -/
theorem c4_witness :
    (⟨[some 1], 1, true⟩ : NnfSt).ln = (1:Int).toNat ∧
    (⟨[some 1], 1, true⟩ : NnfSt).wmc.length = (1:Int).toNat ∧
    nnf_file_wmc (⟨"nnf", [1, 0, 1]⟩ :: [⟨"L", [1]⟩]) [] =
      .ok ((⟨[some 1], 1, true⟩ : NnfSt).wmc.getD ((1:Int).toNat - 1) none) :=
  c4_last_slot [] 1 0 1 [⟨"L", [1]⟩] ⟨[some 1], 1, true⟩ (by decide) (by decide)
    (by decide) (by decide)

/-- C4 counterexample: on the parser-accepted file `nnf 2 0 1` / `L 1` the
last processed body line computes weight 1.0 into slot 0, but the function
returns the untouched final slot (`None`), not that weight. -/
theorem c4_counterexample :
    nnf_file_wmc [⟨"nnf", [2, 0, 1]⟩, ⟨"L", [1]⟩] [] = .ok none ∧
    nnfRun [] [⟨"nnf", [2, 0, 1]⟩, ⟨"L", [1]⟩] = .ok ⟨[some 1, none], 1, true⟩ ∧
    (none : Option ℚ) ≠ some 1 :=
  ⟨by decide, by decide, by decide⟩

/-- The NNF line loop raises the fixed header Exception as soon as a
non-comment line arrives while `detected_nnf` is still false. -/
theorem nnfRunFrom_noheader {weights : List (Int × ℚ)} :
    ∀ (pre : List Line) (l : Line) (ls : List Line),
      (∀ p ∈ pre, p.tag = "c") → l.tag ≠ "c" → l.tag ≠ "nnf" →
      nnfRunFrom weights ⟨[], 0, false⟩ (pre ++ l :: ls) =
        .error (.exc "An NNF file should start with nnf")
  | [], l, ls, _, hc, hn => by
    rw [List.nil_append]
    unfold nnfRunFrom
    rw [nnfStep_noheader weights ⟨[], 0, false⟩ l rfl hc hn]
  | p :: pre, l, ls, hpre, hc, hn => by
    have hp : p.tag = "c" := hpre p (List.mem_cons_self p pre)
    have hstep : nnfStep weights ⟨[], 0, false⟩ p = .ok ⟨[], 0, false⟩ := by
      obtain ⟨tag, args⟩ := p
      simp only at hp
      subst hp
      exact nnfStep_c weights ⟨[], 0, false⟩ args
    simp only [List.cons_append]
    unfold nnfRunFrom
    simp only [hstep]
    exact nnfRunFrom_noheader pre l ls
      (fun q hq => hpre q (List.mem_cons_of_mem p hq)) hc hn

/-- The SDD analogue of `nnfRunFrom_noheader`. -/
theorem sddRunFrom_noheader {weights : List (Int × ℚ)} :
    ∀ (pre : List Line) (l : Line) (ls : List Line),
      (∀ p ∈ pre, p.tag = "c") → l.tag ≠ "c" → l.tag ≠ "sdd" →
      sddRunFrom weights ⟨[], 0, false⟩ (pre ++ l :: ls) =
        .error (.exc "An SDD file should start with sdd")
  | [], l, ls, _, hc, hn => by
    rw [List.nil_append]
    unfold sddRunFrom
    rw [sddStep_noheader weights ⟨[], 0, false⟩ l rfl hc hn]
  | p :: pre, l, ls, hpre, hc, hn => by
    have hp : p.tag = "c" := hpre p (List.mem_cons_self p pre)
    have hstep : sddStep weights ⟨[], 0, false⟩ p = .ok ⟨[], 0, false⟩ := by
      obtain ⟨tag, args⟩ := p
      simp only at hp
      subst hp
      exact sddStep_c weights ⟨[], 0, false⟩ args
    simp only [List.cons_append]
    unfold sddRunFrom
    simp only [hstep]
    exact sddRunFrom_noheader pre l ls
      (fun q hq => hpre q (List.mem_cons_of_mem p hq)) hc hn

/-- C6 (amended): both evaluators abort with the fixed-message format
Exception (which carries no line number) as soon as any non-comment line
precedes the header, so no partial result is returned in that case; but a
body line with an unrecognized leading token after the header is silently
skipped — its slot stays unassigned and no error is raised (see the
counterexample for the unamended claim). -/
theorem c6_header_errors :
    (∀ (weights : List (Int × ℚ)) (pre : List Line) (l : Line) (ls : List Line),
      (∀ p ∈ pre, p.tag = "c") → l.tag ≠ "c" → l.tag ≠ "nnf" →
      nnf_file_wmc (pre ++ l :: ls) weights =
        .error (.exc "An NNF file should start with nnf")) ∧
    (∀ (weights : List (Int × ℚ)) (pre : List Line) (l : Line) (ls : List Line),
      (∀ p ∈ pre, p.tag = "c") → l.tag ≠ "c" → l.tag ≠ "sdd" →
      sdd_file_wmc (pre ++ l :: ls) weights =
        .error (.exc "An SDD file should start with sdd")) ∧
    (∀ (weights : List (Int × ℚ)) (st : NnfSt) (l : Line),
      st.detected = true → l.tag ≠ "c" → l.tag ≠ "nnf" → l.tag ≠ "L" →
      l.tag ≠ "A" → l.tag ≠ "O" →
      nnfStep weights st l = .ok ⟨st.wmc, st.ln + 1, true⟩) ∧
    (∀ (weights : List (Int × ℚ)) (st : SddSt) (l : Line),
      st.detected = true → l.tag ≠ "c" → l.tag ≠ "sdd" → l.tag ≠ "L" →
      l.tag ≠ "F" → l.tag ≠ "T" → l.tag ≠ "D" →
      sddStep weights st l = .ok ⟨st.wmc, st.ln + 1, true⟩) := by
  refine ⟨?_, ?_, nnfStep_other, sddStep_other⟩
  · intro weights pre l ls hpre hc hn
    simp only [nnf_file_wmc, nnfRun, nnfRunFrom_noheader pre l ls hpre hc hn]
  · intro weights pre l ls hpre hc hn
    simp only [sdd_file_wmc, sddRun, sddRunFrom_noheader pre l ls hpre hc hn]

/-- Witness for the hypotheses of C6 (a comment line, then an `L` line,
with no header). -/
theorem c6_witness :
    nnf_file_wmc ([⟨"c", []⟩] ++ ⟨"L", [1]⟩ :: []) [] =
      .error (.exc "An NNF file should start with nnf") :=
  c6_header_errors.1 [] [⟨"c", []⟩] ⟨"L", [1]⟩ []
    (by intro p hp; simp at hp; rw [hp]) (by decide) (by decide)

/-- C6 counterexample: a body line with the unrecognized leading token `X`
does not make either evaluator fail — both run to completion and return a
value, so the "fails with a format error on an unrecognized leading
token" part of the claim is false (the slot is silently left unassigned). -/
theorem c6_counterexample :
    nnf_file_wmc [⟨"nnf", [1, 0, 1]⟩, ⟨"X", [5]⟩] [] = .ok none ∧
    sdd_file_wmc [⟨"sdd", [1]⟩, ⟨"X", [5]⟩] [] = .ok none :=
  ⟨by decide, by decide⟩

/-! ## Claims C8, C9, C10 (renderer) -/
mutual
/-- The visited set only grows during traversal. -/
theorem renderNode_vis_mono (lm : LMap) (si ml : Bool) :
    ∀ (n : SddNode) (visited : List SddNode) (cnt : Nat),
      visited ⊆ (renderNode lm si ml n visited cnt).2.2.1
  | .tru i vp, visited, cnt => by
    by_cases h : SddNode.tru i vp ∈ visited
    · simp [renderNode, h]
    · simp only [renderNode, if_neg h, renderLeaf]
      cases ml <;> simp [List.subset_cons_self]
  | .fls i vp, visited, cnt => by
    by_cases h : SddNode.fls i vp ∈ visited
    · simp [renderNode, h]
    · simp only [renderNode, if_neg h, renderLeaf]
      cases ml <;> simp [List.subset_cons_self]
  | .lit i vp l, visited, cnt => by
    by_cases h : SddNode.lit i vp l ∈ visited
    · simp [renderNode, h]
    · simp only [renderNode, if_neg h, renderLeaf]
      cases ml <;> simp [List.subset_cons_self]
  | .dec i vp elems, visited, cnt => by
    by_cases h : SddNode.dec i vp elems ∈ visited
    · simp [renderNode, h]
    · simp only [renderNode, if_neg h]
      exact List.Subset.trans (List.subset_cons_self _ _)
        (renderElems_vis_mono lm si ml i 0 elems
          (SddNode.dec i vp elems :: visited) cnt)
/-- The visited set only grows during the element loop. -/
theorem renderElems_vis_mono (lm : LMap) (si ml : Bool) (decId : Int) :
    ∀ (idx : Nat) (es : EList) (visited : List SddNode) (cnt : Nat),
      visited ⊆ (renderElems lm si ml decId idx es visited cnt).2.1
  | idx, .nil, visited, cnt => by
    simp [renderElems]
  | idx, .cons p sb t, visited, cnt => by
    simp only [renderElems]
    exact List.Subset.trans (renderNode_vis_mono lm si ml p visited cnt)
      (List.Subset.trans
        (renderNode_vis_mono lm si ml sb _ _)
        (renderElems_vis_mono lm si ml decId (idx + 1) t _ _))
end

/-- C9: a decision node is added to the visited set before its (prime,
sub) elements are recursed into (the recursive element traversal receives
the set extended with the node); a node already in the visited set
contributes no statements and is referred to by its stable id; and after a
decision node is rendered it is in the resulting visited set, so later
references reuse its identifier. -/
theorem c9_visited_before_recursion :
    (∀ (lm : LMap) (si ml : Bool) (i : Int) (vp : Option Int) (elems : EList)
        (visited : List SddNode) (cnt : Nat),
      SddNode.dec i vp elems ∉ visited →
      renderNode lm si ml (.dec i vp elems) visited cnt =
        (toString i,
         (toString i ++ " [shape=circle,label=\"" ++ lmGet lm (.str "add") "+"
           ++ "\"" ++ (if si then ",xlabel=\"" ++
              formatXlabel (.dec i vp elems) ++ "\"" else "") ++ "];") ::
           (renderElems lm si ml i 0 elems
             (SddNode.dec i vp elems :: visited) cnt).1,
         (renderElems lm si ml i 0 elems
           (SddNode.dec i vp elems :: visited) cnt).2.1,
         (renderElems lm si ml i 0 elems
           (SddNode.dec i vp elems :: visited) cnt).2.2)) ∧
    (∀ (lm : LMap) (si ml : Bool) (n : SddNode) (visited : List SddNode)
        (cnt : Nat),
      n ∈ visited →
      renderNode lm si ml n visited cnt = (toString n.nid, [], visited, cnt)) ∧
    (∀ (lm : LMap) (si ml : Bool) (i : Int) (vp : Option Int) (elems : EList)
        (visited : List SddNode) (cnt : Nat),
      SddNode.dec i vp elems ∈
        (renderNode lm si ml (.dec i vp elems) visited cnt).2.2.1) := by
  refine ⟨?_, ?_, ?_⟩
  · intro lm si ml i vp elems visited cnt h
    simp [renderNode, if_neg h]
  · intro lm si ml n visited cnt h
    cases n <;> simp [renderNode, SddNode.nid, h]
  · intro lm si ml i vp elems visited cnt
    by_cases h : SddNode.dec i vp elems ∈ visited
    · simp [renderNode, h]
    · simp only [renderNode, if_neg h]
      exact renderElems_vis_mono lm si ml i 0 elems _ cnt
        (List.mem_cons_self _ _)

/-- Witness for the hypotheses of C9 (a fresh decision node, and a leaf
already in the visited set). -/
theorem c9_witness :
    renderNode [] false false (.dec 5 none .nil) [] 0 =
      (toString (5:Int),
       (toString (5:Int) ++ " [shape=circle,label=\"" ++ lmGet [] (.str "add") "+"
         ++ "\"" ++ (if false then ",xlabel=\"" ++
            formatXlabel (.dec 5 none .nil) ++ "\"" else "") ++ "];") ::
         (renderElems [] false false 5 0 .nil [SddNode.dec 5 none .nil] 0).1,
       (renderElems [] false false 5 0 .nil [SddNode.dec 5 none .nil] 0).2.1,
       (renderElems [] false false 5 0 .nil [SddNode.dec 5 none .nil] 0).2.2) ∧
    renderNode [] false false (.tru 7 none) [.tru 7 none] 3 =
      (toString (SddNode.tru 7 none).nid, [], [.tru 7 none], 3) :=
  ⟨c9_visited_before_recursion.1 [] false false 5 none .nil [] 0 (by decide),
   c9_visited_before_recursion.2.1 [] false false (.tru 7 none) [.tru 7 none] 3
     (by decide)⟩

/-- C8: `sdd_to_dot` resets the module-global counter at the start of
every top-level call, so the result does not depend on the incoming
global state: two sequential calls with identical arguments produce
byte-identical output, and the traversal of a non-None root always starts
with counter 0 and an empty visited set. -/
theorem c8_idempotent_render :
    (∀ (node : Option SddNode) (lm : Option LMap) (si ml : Bool) (g1 g2 : Nat),
      sdd_to_dot node lm si ml g1 = sdd_to_dot node lm si ml g2) ∧
    (∀ (node : Option SddNode) (lm : Option LMap) (si ml : Bool) (g : Nat),
      (sdd_to_dot node lm si ml g).1 =
        (sdd_to_dot node lm si ml (sdd_to_dot node lm si ml g).2).1) ∧
    (∀ (n : SddNode) (lm : Option LMap) (si ml : Bool) (g : Nat),
      sdd_to_dot (some n) lm si ml g =
        (.ok (String.intercalate "\n" (["digraph sdd \x7b"] ++
          (renderNode (lm.getD []) si ml n [] 0).2.1 ++ ["\x7d"])),
         (renderNode (lm.getD []) si ml n [] 0).2.2.2)) := by
  refine ⟨?_, ?_, ?_⟩
  · intro node lm si ml g1 g2
    cases node <;> rfl
  · intro node lm si ml g
    cases node <;> rfl
  · intro n lm si ml g
    rfl

/-- C10: calling the renderer with a `None` root raises ValueError (no
output text is produced), while every non-None root renders
successfully — a non-None root is a precondition of every successful
render. -/
theorem c10_none_root_valueerror :
    (∀ (lm : Option LMap) (si ml : Bool) (g : Nat),
      sdd_to_dot none lm si ml g = (.error "No root node given", 0)) ∧
    (∀ (n : SddNode) (lm : Option LMap) (si ml : Bool) (g : Nat),
      (sdd_to_dot (some n) lm si ml g).1.isOk = true) := by
  exact ⟨fun lm si ml g => rfl, fun n lm si ml g => rfl⟩

theorem list_all_congr {α : Type} {l : List α} {p q : α → Bool}
    (h : ∀ a ∈ l, p a = q a) : l.all p = l.all q := by
  induction l with
  | nil => rfl
  | cons x xs ih =>
    simp only [List.all_cons, h x (List.mem_cons_self x xs)]
    rw [ih (fun a ha => h a (List.mem_cons_of_mem x ha))]

theorem list_any_congr {α : Type} {l : List α} {p q : α → Bool}
    (h : ∀ a ∈ l, p a = q a) : l.any p = l.any q := by
  induction l with
  | nil => rfl
  | cons x xs ih =>
    simp only [List.any_cons, h x (List.mem_cons_self x xs)]
    rw [ih (fun a ha => h a (List.mem_cons_of_mem x ha))]

theorem list_map_congr {α β : Type} {l : List α} {p q : α → β}
    (h : ∀ a ∈ l, p a = q a) : l.map p = l.map q := by
  induction l with
  | nil => rfl
  | cons x xs ih =>
    simp only [List.map_cons, h x (List.mem_cons_self x xs)]
    rw [ih (fun a ha => h a (List.mem_cons_of_mem x ha))]

/-- The denotation is independent of the fuel, provided it exceeds the
slot index (references are guarded to be strictly smaller). -/
theorem denF_fuel (body : List Line) (v : Nat) (f : Fin v → Bool) :
    ∀ (i f1 f2 : Nat), i < f1 → i < f2 →
      denF body v f f1 i = denF body v f f2 i := by
  intro i
  induction i using Nat.strong_induction_on with
  | _ i ih =>
    intro f1 f2 h1 h2
    obtain ⟨g1, rfl⟩ : ∃ g1, f1 = g1 + 1 := ⟨f1 - 1, by omega⟩
    obtain ⟨g2, rfl⟩ : ∃ g2, f2 = g2 + 1 := ⟨f2 - 1, by omega⟩
    simp only [denF]
    cases body[i]? with
    | none => rfl
    | some l =>
      dsimp only
      by_cases hL : l.tag = "L"
      · rw [if_pos hL, if_pos hL]
      · rw [if_neg hL, if_neg hL]
        by_cases hA : l.tag = "A"
        · rw [if_pos hA, if_pos hA]
          apply list_all_congr
          intro c hc
          by_cases hg : 0 ≤ c ∧ c.toNat < i
          · rw [if_pos hg, if_pos hg]
            exact ih c.toNat hg.2 g1 g2 (by omega) (by omega)
          · rw [if_neg hg, if_neg hg]
        · rw [if_neg hA, if_neg hA]
          by_cases hO : l.tag = "O"
          · rw [if_pos hO, if_pos hO]
            apply list_any_congr
            intro c hc
            by_cases hg : 0 ≤ c ∧ c.toNat < i
            · rw [if_pos hg, if_pos hg]
              exact ih c.toNat hg.2 g1 g2 (by omega) (by omega)
            · rw [if_neg hg, if_neg hg]
          · rw [if_neg hO, if_neg hO]

/-- The scope is likewise fuel-independent. -/
theorem scopeF_fuel (body : List Line) :
    ∀ (i f1 f2 : Nat), i < f1 → i < f2 →
      scopeF body f1 i = scopeF body f2 i := by
  intro i
  induction i using Nat.strong_induction_on with
  | _ i ih =>
    intro f1 f2 h1 h2
    obtain ⟨g1, rfl⟩ : ∃ g1, f1 = g1 + 1 := ⟨f1 - 1, by omega⟩
    obtain ⟨g2, rfl⟩ : ∃ g2, f2 = g2 + 1 := ⟨f2 - 1, by omega⟩
    simp only [scopeF]
    cases body[i]? with
    | none => rfl
    | some l =>
      dsimp only
      by_cases hL : l.tag = "L"
      · rw [if_pos hL, if_pos hL]
      · rw [if_neg hL, if_neg hL]
        congr 1
        apply list_map_congr
        intro c hc
        by_cases hg : 0 ≤ c ∧ c.toNat < i
        · rw [if_pos hg, if_pos hg]
          exact ih c.toNat hg.2 g1 g2 (by omega) (by omega)
        · rw [if_neg hg, if_neg hg]

/-- One-step unfolding of `den` in terms of `den` at the referenced
(strictly smaller) slots. -/
theorem den_unfold (body : List Line) (v : Nat) (f : Fin v → Bool) (i : Nat) :
    den body v f i =
      match body[i]? with
      | none => false
      | some l =>
        if l.tag = "L" then
          match l.args with
          | lit :: _ => litVal v f lit
          | [] => false
        else if l.tag = "A" then
          (childRefs l).all (fun c =>
            if 0 ≤ c ∧ c.toNat < i then den body v f c.toNat else false)
        else if l.tag = "O" then
          (childRefs l).any (fun c =>
            if 0 ≤ c ∧ c.toNat < i then den body v f c.toNat else false)
        else false := by
  show denF body v f (i + 1) i = _
  simp only [denF]
  cases body[i]? with
  | none => rfl
  | some l =>
    dsimp only
    by_cases hL : l.tag = "L"
    · rw [if_pos hL, if_pos hL]
    · rw [if_neg hL, if_neg hL]
      by_cases hA : l.tag = "A"
      · rw [if_pos hA, if_pos hA]
        apply list_all_congr
        intro c hc
        by_cases hg : 0 ≤ c ∧ c.toNat < i
        · rw [if_pos hg, if_pos hg]
          exact denF_fuel body v f c.toNat i (c.toNat + 1) hg.2 (by omega)
        · rw [if_neg hg, if_neg hg]
      · rw [if_neg hA, if_neg hA]
        by_cases hO : l.tag = "O"
        · rw [if_pos hO, if_pos hO]
          apply list_any_congr
          intro c hc
          by_cases hg : 0 ≤ c ∧ c.toNat < i
          · rw [if_pos hg, if_pos hg]
            exact denF_fuel body v f c.toNat i (c.toNat + 1) hg.2 (by omega)
          · rw [if_neg hg, if_neg hg]
        · rw [if_neg hO, if_neg hO]

/-- One-step unfolding of `scope`. -/
theorem scope_unfold (body : List Line) (i : Nat) :
    scope body i =
      match body[i]? with
      | none => ∅
      | some l =>
        if l.tag = "L" then
          match l.args with
          | lit :: _ => {lit.natAbs - 1}
          | [] => ∅
        else
          ((childRefs l).map (fun c =>
            if 0 ≤ c ∧ c.toNat < i then scope body c.toNat else ∅)).foldr
            (· ∪ ·) ∅ := by
  show scopeF body (i + 1) i = _
  simp only [scopeF]
  cases body[i]? with
  | none => rfl
  | some l =>
    dsimp only
    by_cases hL : l.tag = "L"
    · rw [if_pos hL, if_pos hL]
    · rw [if_neg hL, if_neg hL]
      congr 1
      apply list_map_congr
      intro c hc
      by_cases hg : 0 ≤ c ∧ c.toNat < i
      · rw [if_pos hg, if_pos hg]
        exact scopeF_fuel body c.toNat i (c.toNat + 1) hg.2 (by omega)
      · rw [if_neg hg, if_neg hg]

theorem cnt_congr {v : Nat} {P Q : (Fin v → Bool) → Bool}
    (h : ∀ f, P f = Q f) : cnt v P = cnt v Q := by
  unfold cnt
  congr 1
  apply Finset.filter_congr
  intro f _
  rw [h f]

theorem cnt_true (v : Nat) : cnt v (fun _ => true) = 2 ^ v := by
  unfold cnt
  simp [Finset.card_univ, Fintype.card_fun]

theorem cnt_false (v : Nat) : cnt v (fun _ => false) = 0 := by
  unfold cnt
  rw [Finset.card_eq_zero]
  ext f
  simp

theorem cnt_add_compl (v : Nat) (P : (Fin v → Bool) → Bool) :
    cnt v P + cnt v (fun f => !(P f)) = 2 ^ v := by
  unfold cnt
  have hneg : (Finset.univ.filter (fun f : Fin v → Bool => (!(P f)) = true)) =
      (Finset.univ.filter (fun f => ¬ (P f = true))) := by
    apply Finset.filter_congr
    intro f _
    simp
  rw [hneg, ← Finset.card_union_of_disjoint (Finset.disjoint_filter_filter_neg _ _ _),
    Finset.filter_union_filter_neg_eq, Finset.card_univ, Fintype.card_fun]
  simp

theorem mergeOn_invol {v : Nat} (S : Finset Nat) (f g : Fin v → Bool) :
    mergeOn S (mergeOn S f g) (mergeOn S g f) = f := by
  funext ix
  by_cases h : (ix : Nat) ∈ S <;> simp [mergeOn, h]

theorem cnt_coord_flip (v : Nat) (ix : Fin v) :
    cnt v (fun f => f ix) = cnt v (fun f => !(f ix)) := by
  unfold cnt
  apply Finset.card_nbij' (i := fun f => Function.update f ix (!(f ix)))
    (j := fun f => Function.update f ix (!(f ix)))
  · intro f hf
    simp only [Finset.mem_filter, Finset.mem_univ, true_and] at hf ⊢
    simp [Function.update_same, hf]
  · intro f hf
    simp only [Finset.mem_filter, Finset.mem_univ, true_and] at hf ⊢
    simp [Function.update_same, hf]
  · intro f _
    funext y
    by_cases hy : y = ix
    · subst hy
      simp [Function.update_same]
    · simp [Function.update_noteq hy]
  · intro f _
    funext y
    by_cases hy : y = ix
    · subst hy
      simp [Function.update_same]
    · simp [Function.update_noteq hy]

theorem cnt_coord_true (v : Nat) (ix : Fin v) :
    cnt v (fun f => f ix) = 2 ^ (v - 1) := by
  have hv : 0 < v := ix.pos
  have hpow : 2 ^ v = 2 ^ (v - 1) * 2 := by
    conv_lhs => rw [show v = (v - 1) + 1 by omega]
    rw [pow_succ]
  have hsum := cnt_add_compl v (fun f => f ix)
  rw [← cnt_coord_flip v ix, hpow] at hsum
  generalize hA : cnt v (fun f => f ix) = A at hsum ⊢
  generalize hB : 2 ^ (v - 1) = B at hsum ⊢
  clear hA hB hpow
  omega

theorem cnt_coord_false (v : Nat) (ix : Fin v) :
    cnt v (fun f => !(f ix)) = 2 ^ (v - 1) := by
  rw [← cnt_coord_flip]
  exact cnt_coord_true v ix

theorem cnt_litVal (v : Nat) (lit : Int) (h0 : lit ≠ 0)
    (hv : lit.natAbs ≤ v) :
    cnt v (fun f => litVal v f lit) = 2 ^ (v - 1) := by
  have hpos : 0 < lit.natAbs := Int.natAbs_pos.mpr h0
  have hidx : lit.natAbs - 1 < v := by omega
  by_cases hsign : 0 < lit
  · have heq : ∀ f : Fin v → Bool,
        litVal v f lit = f ⟨lit.natAbs - 1, hidx⟩ := by
      intro f
      simp [litVal, hidx, hsign]
    rw [cnt_congr heq]
    exact cnt_coord_true v ⟨lit.natAbs - 1, hidx⟩
  · have heq : ∀ f : Fin v → Bool,
        litVal v f lit = !(f ⟨lit.natAbs - 1, hidx⟩) := by
      intro f
      simp [litVal, hidx, hsign]
    rw [cnt_congr heq]
    exact cnt_coord_false v ⟨lit.natAbs - 1, hidx⟩

theorem DepOn_litVal (v : Nat) (lit : Int) :
    DepOn v (fun f => litVal v f lit) {lit.natAbs - 1} := by
  intro f g hagree
  by_cases hidx : lit.natAbs - 1 < v
  · have := hagree ⟨lit.natAbs - 1, hidx⟩ (by simp)
    simp [litVal, hidx, this]
  · simp [litVal, hidx]

/-- The central independence lemma: if `P` depends only on `S`, `Q` only
on `T`, and `S` and `T` are disjoint, then the satisfying assignments of
the conjunction multiply (scaled by the total space). -/
theorem cnt_and_mul (v : Nat) (P Q : (Fin v → Bool) → Bool)
    (S T : Finset Nat) (hP : DepOn v P S) (hQ : DepOn v Q T)
    (hd : Disjoint S T) :
    cnt v (fun f => P f && Q f) * 2 ^ v = cnt v P * cnt v Q := by
  have hTnS : ∀ ix : Fin v, (ix : Nat) ∈ T → (ix : Nat) ∉ S := by
    intro ix hT hS
    exact Finset.disjoint_left.mp hd hS hT
  have hbij :
      ((Finset.univ.filter (fun f : Fin v → Bool => (P f && Q f) = true)) ×ˢ
        (Finset.univ : Finset (Fin v → Bool))).card =
      ((Finset.univ.filter (fun f : Fin v → Bool => P f = true)) ×ˢ
        (Finset.univ.filter (fun f : Fin v → Bool => Q f = true))).card := by
    apply Finset.card_nbij'
      (i := fun p => (mergeOn S p.1 p.2, mergeOn S p.2 p.1))
      (j := fun p => (mergeOn S p.1 p.2, mergeOn S p.2 p.1))
    · intro p hp
      simp only [Finset.mem_product, Finset.mem_filter, Finset.mem_univ,
        true_and, Bool.and_eq_true] at hp ⊢
      refine ⟨?_, ?_⟩
      · have := hP (mergeOn S p.1 p.2) p.1
          (fun ix hix => by simp [mergeOn, hix])
        rw [this]
        exact hp.1.1
      · have := hQ (mergeOn S p.2 p.1) p.1
          (fun ix hix => by simp [mergeOn, hTnS ix hix])
        rw [this]
        exact hp.1.2
    · intro p hp
      simp only [Finset.mem_product, Finset.mem_filter, Finset.mem_univ,
        true_and, Bool.and_eq_true] at hp ⊢
      refine ⟨⟨?_, ?_⟩, trivial⟩
      · have := hP (mergeOn S p.1 p.2) p.1
          (fun ix hix => by simp [mergeOn, hix])
        rw [this]
        exact hp.1
      · have := hQ (mergeOn S p.1 p.2) p.2
          (fun ix hix => by simp [mergeOn, hTnS ix hix])
        rw [this]
        exact hp.2
    · intro p _
      exact Prod.ext (mergeOn_invol S p.1 p.2) (mergeOn_invol S p.2 p.1)
    · intro p _
      exact Prod.ext (mergeOn_invol S p.1 p.2) (mergeOn_invol S p.2 p.1)
  rw [Finset.card_product, Finset.card_product, Finset.card_univ,
    Fintype.card_fun, Fintype.card_fin, Fintype.card_bool] at hbij
  exact hbij

/-- Counting a disjunction of semantically disjoint predicates adds. -/
theorem cnt_or (v : Nat) (P Q : (Fin v → Bool) → Bool)
    (h : ∀ f, ¬(P f = true ∧ Q f = true)) :
    cnt v (fun f => P f || Q f) = cnt v P + cnt v Q := by
  unfold cnt
  rw [← Finset.card_union_of_disjoint]
  · congr 1
    ext f
    simp only [Finset.mem_union, Finset.mem_filter, Finset.mem_univ, true_and,
      Bool.or_eq_true]
  · rw [Finset.disjoint_left]
    intro f hf1 hf2
    simp only [Finset.mem_filter, Finset.mem_univ, true_and] at hf1 hf2
    exact h f ⟨hf1, hf2⟩

/-! ## Fold lemmas for AND / OR lists -/
theorem subset_foldr_union (s : Finset Nat) :
    ∀ (L : List (Finset Nat)), s ∈ L → s ⊆ L.foldr (· ∪ ·) ∅
  | t :: L, h => by
    rcases List.mem_cons.mp h with h1 | h2
    · subst h1
      exact Finset.subset_union_left
    · exact (subset_foldr_union s L h2).trans Finset.subset_union_right

theorem disjoint_foldr_union (s : Finset Nat) :
    ∀ (L : List (Finset Nat)), (∀ t ∈ L, Disjoint s t) →
      Disjoint s (L.foldr (· ∪ ·) ∅)
  | [], _ => by simp
  | t :: L, h => by
    simp only [List.foldr_cons, Finset.disjoint_union_right]
    exact ⟨h t (List.mem_cons_self t L),
      disjoint_foldr_union s L (fun u hu => h u (List.mem_cons_of_mem t hu))⟩

theorem foldr_union_const (S : Finset Nat) :
    ∀ (L : List (Finset Nat)), L ≠ [] → (∀ t ∈ L, t = S) →
      L.foldr (· ∪ ·) ∅ = S
  | [t], _, h => by
    simp [h t (List.mem_cons_self t [])]
  | t :: u :: L, _, h => by
    have hrest := foldr_union_const S (u :: L) (by simp)
      (fun x hx => h x (List.mem_cons_of_mem t hx))
    have ht := h t (List.mem_cons_self t (u :: L))
    show t ∪ (u :: L).foldr (· ∪ ·) ∅ = S
    rw [hrest, ht, Finset.union_self]

theorem andPred_nil {v : Nat} : andPred (v := v) [] = fun _ => true := rfl

theorem andPred_cons {v : Nat} (p : (Fin v → Bool) → Bool)
    (ps : List ((Fin v → Bool) → Bool)) :
    andPred (p :: ps) = fun f => p f && andPred ps f := rfl

theorem orPred_cons {v : Nat} (p : (Fin v → Bool) → Bool)
    (ps : List ((Fin v → Bool) → Bool)) :
    orPred (p :: ps) = fun f => p f || orPred ps f := rfl

theorem unionAll_cons (S : Finset Nat) (L : List (Finset Nat)) :
    unionAll (S :: L) = S ∪ unionAll L := rfl

/-- An AND of predicates depends only on the union of their supports. -/
theorem DepOn_andPred (v : Nat) :
    ∀ (ps : List ((Fin v → Bool) → Bool)) (Ss : List (Finset Nat)),
      ps.length = Ss.length →
      (∀ j, (h1 : j < ps.length) → (h2 : j < Ss.length) →
        DepOn v (ps.get ⟨j, h1⟩) (Ss.get ⟨j, h2⟩)) →
      DepOn v (andPred ps) (unionAll Ss)
  | [], [], _, _ => by
    intro f g _
    rfl
  | p :: ps, S :: Ss, hlen, h => by
    intro f g hagree
    rw [unionAll_cons] at hagree
    simp only [andPred_cons]
    have h1 : p f = p g :=
      h 0 (by simp) (by simp) f g
        (fun ix hix => hagree ix (Finset.mem_union_left _ hix))
    have h2 := DepOn_andPred v ps Ss (by simpa using hlen)
      (fun j hj1 hj2 => h (j + 1) (by simpa using Nat.succ_lt_succ hj1)
        (by simpa using Nat.succ_lt_succ hj2)) f g
      (fun ix hix => hagree ix (Finset.mem_union_right _ hix))
    rw [h1, h2]

/-- The AND-invariant: conjoining predicates with pairwise disjoint
supports multiplies the scaled counts. -/
theorem cnt_andPred (v : Nat) :
    ∀ (l : List ((((Fin v → Bool) → Bool)) × Finset Nat × ℚ)),
      (∀ t ∈ l, DepOn v t.1 t.2.1) →
      (∀ t ∈ l, (cnt v t.1 : ℚ) * 2 ^ (t.2.1.card) = t.2.2 * 2 ^ v) →
      l.Pairwise (fun a b => Disjoint a.2.1 b.2.1) →
      (cnt v (andPred (l.map (fun t => t.1))) : ℚ) *
        2 ^ ((unionAll (l.map (fun t => t.2.1))).card) =
      (l.map (fun t => t.2.2)).prod * 2 ^ v
  | [], _, _, _ => by
    rw [List.map_nil, List.map_nil, List.map_nil, andPred_nil, cnt_true]
    simp [unionAll]
  | t :: l, hdep, hinv, hpair => by
    have hdepl : ∀ u ∈ l, DepOn v u.1 u.2.1 :=
      fun u hu => hdep u (List.mem_cons_of_mem t hu)
    have hQdep : DepOn v (andPred (l.map (fun t => t.1)))
        (unionAll (l.map (fun t => t.2.1))) := by
      apply DepOn_andPred v _ _ (by simp)
      intro j hj1 hj2
      simp only [List.length_map] at hj1
      simp only [List.get_eq_getElem, List.getElem_map]
      exact hdepl l[j] (List.getElem_mem hj1)
    have hd : Disjoint t.2.1 (unionAll (l.map (fun u => u.2.1))) := by
      apply disjoint_foldr_union
      intro u hu
      obtain ⟨x, hx, rfl⟩ := List.mem_map.mp hu
      exact (List.pairwise_cons.mp hpair).1 x hx
    have hbin := cnt_and_mul v t.1 (andPred (l.map (fun t => t.1)))
      t.2.1 (unionAll (l.map (fun t => t.2.1)))
      (hdep t (List.mem_cons_self t l)) hQdep hd
    have hrec := cnt_andPred v l hdepl
      (fun u hu => hinv u (List.mem_cons_of_mem t hu))
      (List.pairwise_cons.mp hpair).2
    have hhead := hinv t (List.mem_cons_self t l)
    have hcardU : (t.2.1 ∪ unionAll (l.map (fun u => u.2.1))).card =
        t.2.1.card + (unionAll (l.map (fun u => u.2.1))).card :=
      Finset.card_union_of_disjoint hd
    have halign : cnt v (andPred ((t :: l).map (fun u => u.1))) =
        cnt v (fun f => t.1 f && andPred (l.map (fun u => u.1)) f) := by
      apply cnt_congr
      intro f
      rw [List.map_cons, andPred_cons]
    rw [halign]
    simp only [List.map_cons, unionAll_cons, List.prod_cons]
    rw [hcardU]
    have h2v : ((2 : ℚ) ^ v) ≠ 0 := by positivity
    apply mul_right_cancel₀ h2v
    have hbinQ : (cnt v (fun f => t.1 f &&
        andPred (l.map (fun u => u.1)) f) : ℚ) * 2 ^ v =
        (cnt v t.1 : ℚ) * (cnt v (andPred (l.map (fun u => u.1))) : ℚ) := by
      exact_mod_cast hbin
    calc (cnt v (fun f => t.1 f && andPred (l.map (fun u => u.1)) f) : ℚ) *
          2 ^ (t.2.1.card + (unionAll (l.map (fun u => u.2.1))).card) * 2 ^ v
        = ((cnt v (fun f => t.1 f && andPred (l.map (fun u => u.1)) f) : ℚ) *
            2 ^ v) * (2 ^ t.2.1.card *
            2 ^ ((unionAll (l.map (fun u => u.2.1))).card)) := by
          rw [pow_add]
          ring
      _ = ((cnt v t.1 : ℚ) * 2 ^ t.2.1.card) *
            ((cnt v (andPred (l.map (fun u => u.1))) : ℚ) *
            2 ^ ((unionAll (l.map (fun u => u.2.1))).card)) := by
          rw [hbinQ]
          ring
      _ = (t.2.2 * 2 ^ v) * ((l.map (fun u => u.2.2)).prod * 2 ^ v) := by
          rw [hhead, hrec]
      _ = t.2.2 * (l.map (fun u => u.2.2)).prod * 2 ^ v * 2 ^ v := by
          ring

/-- The OR-invariant: for pairwise semantically disjoint disjuncts whose
invariants all carry the same scope cardinality `S.card`, the disjunction
sums the weights. -/
theorem cnt_orPred (v : Nat) (S : Finset Nat) :
    ∀ (l : List ((((Fin v → Bool) → Bool)) × ℚ)),
      (∀ t ∈ l, (cnt v t.1 : ℚ) * 2 ^ S.card = t.2 * 2 ^ v) →
      l.Pairwise (fun a b => ∀ f, ¬(a.1 f = true ∧ b.1 f = true)) →
      (cnt v (orPred (l.map (fun t => t.1))) : ℚ) * 2 ^ S.card =
        (l.map (fun t => t.2)).sum * 2 ^ v
  | [], _, _ => by
    have h1 : cnt v (orPred (v := v) []) = cnt v (fun _ => false) :=
      cnt_congr (fun f => rfl)
    rw [List.map_nil, List.map_nil, h1, cnt_false]
    simp
  | t :: l, hinv, hpair => by
    have hdisj : ∀ f, ¬(t.1 f = true ∧
        orPred (l.map (fun u => u.1)) f = true) := by
      intro f hf
      obtain ⟨htf, hanyf⟩ := hf
      obtain ⟨p, hp, hpf⟩ := List.any_eq_true.mp hanyf
      obtain ⟨u, hu, rfl⟩ := List.mem_map.mp hp
      exact (List.pairwise_cons.mp hpair).1 u hu f ⟨htf, hpf⟩
    have hsum := cnt_or v t.1 (orPred (l.map (fun u => u.1))) hdisj
    have hrec := cnt_orPred v S l
      (fun u hu => hinv u (List.mem_cons_of_mem t hu))
      (List.pairwise_cons.mp hpair).2
    have hhead := hinv t (List.mem_cons_self t l)
    have halign : cnt v (orPred ((t :: l).map (fun u => u.1))) =
        cnt v (fun f => t.1 f || orPred (l.map (fun u => u.1)) f) := by
      apply cnt_congr
      intro f
      rw [List.map_cons, orPred_cons]
    rw [halign]
    simp only [List.map_cons, List.sum_cons]
    have hsumQ : (cnt v (fun f => t.1 f ||
        orPred (l.map (fun u => u.1)) f) : ℚ) =
        (cnt v t.1 : ℚ) + (cnt v (orPred (l.map (fun u => u.1))) : ℚ) := by
      exact_mod_cast hsum
    rw [hsumQ, add_mul, hhead, hrec, add_mul]

/-- The denotation of a slot depends only on its scope. -/
theorem den_dep (body : List Line) (v : Nat) :
    ∀ i, DepOn v (fun f => den body v f i) (scope body i) := by
  intro i
  induction i using Nat.strong_induction_on with
  | _ i ih =>
    intro f g hagree
    show den body v f i = den body v g i
    rw [den_unfold body v f i, den_unfold body v g i]
    rw [scope_unfold body i] at hagree
    cases hbody : body[i]? with
    | none => rfl
    | some l =>
      rw [hbody] at hagree
      obtain ⟨tag, args⟩ := l
      dsimp only at hagree ⊢
      by_cases hL : tag = "L"
      · subst hL
        rw [if_pos rfl, if_pos rfl]
        rw [if_pos rfl] at hagree
        cases args with
        | nil => rfl
        | cons lit rest => exact DepOn_litVal v lit f g hagree
      · rw [if_neg hL, if_neg hL]
        rw [if_neg hL] at hagree
        by_cases hA : tag = "A"
        · subst hA
          rw [if_pos rfl, if_pos rfl]
          apply list_all_congr
          intro c hc
          by_cases hg : 0 ≤ c ∧ c.toNat < i
          · rw [if_pos hg, if_pos hg]
            apply ih c.toNat hg.2 f g
            intro ix hix
            apply hagree ix
            apply subset_foldr_union (scope body c.toNat) _ _ hix
            have he : (if 0 ≤ c ∧ c.toNat < i then scope body c.toNat else ∅) =
                scope body c.toNat := if_pos hg
            rw [← he]
            exact List.mem_map_of_mem _ hc
          · rw [if_neg hg, if_neg hg]
        · rw [if_neg hA, if_neg hA]
          by_cases hO : tag = "O"
          · subst hO
            rw [if_pos rfl, if_pos rfl]
            apply list_any_congr
            intro c hc
            by_cases hg : 0 ≤ c ∧ c.toNat < i
            · rw [if_pos hg, if_pos hg]
              apply ih c.toNat hg.2 f g
              intro ix hix
              apply hagree ix
              apply subset_foldr_union (scope body c.toNat) _ _ hix
              have he : (if 0 ≤ c ∧ c.toNat < i then scope body c.toNat else ∅) =
                  scope body c.toNat := if_pos hg
              rw [← he]
              exact List.mem_map_of_mem _ hc
            · rw [if_neg hg, if_neg hg]
          · rw [if_neg hO, if_neg hO]

theorem lineAt_eq {body : List Line} {i : Nat} (h : i < body.length) :
    body[i]? = some (lineAt body i) := by
  rw [List.getElem?_eq_getElem h]
  congr 1
  rw [lineAt, List.getD_eq_getElem?_getD, List.getElem?_eq_getElem h]
  rfl

theorem allOnes_lookup {weights : List (Int × ℚ)} {v : Nat}
    (h : AllOnes weights v) {lit : Int} (h0 : lit ≠ 0)
    (hv : lit.natAbs ≤ v) : lookupW weights lit = some 1 := by
  have hpos : 0 < lit.natAbs := Int.natAbs_pos.mpr h0
  have hx := h (lit.natAbs - 1) (by omega)
  have hcast : ((lit.natAbs - 1 : Nat) : Int) + 1 = (lit.natAbs : Int) := by
    omega
  rcases Int.natAbs_eq lit with he | he
  · rw [hcast] at hx
    rw [he]
    exact hx.1
  · rw [hcast] at hx
    rw [he]
    exact hx.2

theorem slotW_eq {wmc : List (Option ℚ)} {n : Nat} {w : ℚ}
    (h : wmc[n]? = some (some w)) {c : Int} (hc : c.toNat = n) :
    slotW wmc c = w := by
  rw [slotW, hc, List.getD_eq_getElem?_getD, h]
  rfl

theorem childRefs_A {l : Line} {k : Int} {cs : List Int}
    (htag : l.tag = "A") (harg : l.args = k :: cs) :
    childRefs l = cs.take k.toNat := by
  unfold childRefs
  rw [if_pos htag, harg]

theorem childRefs_O {l : Line} {j k : Int} {cs : List Int}
    (htag : l.tag = "O") (harg : l.args = j :: k :: cs) :
    childRefs l = cs.take k.toNat := by
  unfold childRefs
  rw [if_neg (by simp [htag]), if_pos htag, harg]

theorem den_L_eq {body : List Line} {v : Nat} {m : Nat} {l : Line}
    {lit : Int} {rest : List Int} (hbody : body[m]? = some l)
    (htag : l.tag = "L") (harg : l.args = lit :: rest) (f : Fin v → Bool) :
    den body v f m = litVal v f lit := by
  rw [den_unfold, hbody]
  dsimp only
  rw [if_pos htag, harg]

theorem scope_L_eq {body : List Line} {m : Nat} {l : Line}
    {lit : Int} {rest : List Int} (hbody : body[m]? = some l)
    (htag : l.tag = "L") (harg : l.args = lit :: rest) :
    scope body m = {lit.natAbs - 1} := by
  rw [scope_unfold, hbody]
  dsimp only
  rw [if_pos htag, harg]

theorem den_A_eq {body : List Line} {v : Nat} {m : Nat} {l : Line}
    (hbody : body[m]? = some l) (htag : l.tag = "A")
    (hrefs : ∀ c ∈ childRefs l, 0 ≤ c ∧ c.toNat < m) (f : Fin v → Bool) :
    den body v f m = (childRefs l).all (fun c => den body v f c.toNat) := by
  rw [den_unfold, hbody]
  dsimp only
  rw [if_neg (by simp [htag]), if_pos htag]
  apply list_all_congr
  intro c hc
  rw [if_pos (hrefs c hc)]

theorem den_O_eq {body : List Line} {v : Nat} {m : Nat} {l : Line}
    (hbody : body[m]? = some l) (htag : l.tag = "O")
    (hrefs : ∀ c ∈ childRefs l, 0 ≤ c ∧ c.toNat < m) (f : Fin v → Bool) :
    den body v f m = (childRefs l).any (fun c => den body v f c.toNat) := by
  rw [den_unfold, hbody]
  dsimp only
  rw [if_neg (by simp [htag]), if_neg (by simp [htag]), if_pos htag]
  apply list_any_congr
  intro c hc
  rw [if_pos (hrefs c hc)]

theorem scope_children_eq {body : List Line} {m : Nat} {l : Line}
    (hbody : body[m]? = some l) (htagL : l.tag ≠ "L")
    (hrefs : ∀ c ∈ childRefs l, 0 ≤ c ∧ c.toNat < m) :
    scope body m =
      unionAll ((childRefs l).map (fun c => scope body c.toNat)) := by
  rw [scope_unfold, hbody]
  dsimp only
  rw [if_neg htagL]
  unfold unionAll
  congr 1
  apply list_map_congr
  intro c hc
  rw [if_pos (hrefs c hc)]

theorem list_all_map {α β : Type} (l : List α) (g : α → β) (p : β → Bool) :
    (l.map g).all p = l.all (fun a => p (g a)) := by
  induction l with
  | nil => rfl
  | cons x xs ih => simp [List.all_cons, ih]

theorem list_any_map {α β : Type} (l : List α) (g : α → β) (p : β → Bool) :
    (l.map g).any p = l.any (fun a => p (g a)) := by
  induction l with
  | nil => rfl
  | cons x xs ih => simp [List.any_cons, ih]

/-- Bridge: the AND-invariant instantiated at a list of child slot
references. -/
theorem cnt_and_refs (body : List Line) (v : Nat) (wmc : List (Option ℚ))
    (refs : List Int)
    (hinv : ∀ c ∈ refs, SlotInv body v wmc c.toNat)
    (hpair : refs.Pairwise
      (fun a b => Disjoint (scope body a.toNat) (scope body b.toNat))) :
    (cnt v (fun f => refs.all (fun c => den body v f c.toNat)) : ℚ) *
      2 ^ ((unionAll (refs.map (fun c => scope body c.toNat))).card) =
    (refs.map (slotW wmc)).prod * 2 ^ v := by
  have happ := cnt_andPred v (refs.map (fun c =>
      ((fun f : Fin v → Bool => den body v f c.toNat),
        scope body c.toNat, slotW wmc c)))
    (by
      intro t ht
      obtain ⟨c, hc, rfl⟩ := List.mem_map.mp ht
      exact den_dep body v c.toNat)
    (by
      intro t ht
      obtain ⟨c, hc, rfl⟩ := List.mem_map.mp ht
      obtain ⟨w, hw, heq⟩ := hinv c hc
      dsimp only
      rw [slotW_eq hw rfl]
      exact heq)
    (List.Pairwise.map _ (fun a b hab => hab) hpair)
  rw [List.map_map, List.map_map, List.map_map] at happ
  have e1 : cnt v (fun f => refs.all (fun c => den body v f c.toNat)) =
      cnt v (andPred (refs.map
        (fun c => (fun f : Fin v → Bool => den body v f c.toNat)))) := by
    apply cnt_congr
    intro f
    rw [andPred, list_all_map]
  rw [e1]
  exact happ

/-- Bridge: the OR-invariant instantiated at a list of child slot
references that all share the scope `S`. -/
theorem cnt_or_refs (body : List Line) (v : Nat) (wmc : List (Option ℚ))
    (refs : List Int) (S : Finset Nat)
    (hinv : ∀ c ∈ refs, SlotInv body v wmc c.toNat)
    (hS : ∀ c ∈ refs, scope body c.toNat = S)
    (hdet : refs.Pairwise (fun a b => ∀ f : Fin v → Bool,
      ¬(den body v f a.toNat = true ∧ den body v f b.toNat = true))) :
    (cnt v (fun f => refs.any (fun c => den body v f c.toNat)) : ℚ) *
      2 ^ S.card = (refs.map (slotW wmc)).sum * 2 ^ v := by
  have happ := cnt_orPred v S (refs.map (fun c =>
      ((fun f : Fin v → Bool => den body v f c.toNat), slotW wmc c)))
    (by
      intro t ht
      obtain ⟨c, hc, rfl⟩ := List.mem_map.mp ht
      obtain ⟨w, hw, heq⟩ := hinv c hc
      dsimp only
      rw [slotW_eq hw rfl, ← hS c hc]
      exact heq)
    (List.Pairwise.map _ (fun a b hab => hab) hdet)
  rw [List.map_map, List.map_map] at happ
  have e1 : cnt v (fun f => refs.any (fun c => den body v f c.toNat)) =
      cnt v (orPred (refs.map
        (fun c => (fun f : Fin v → Bool => den body v f c.toNat)))) := by
    apply cnt_congr
    intro f
    rw [orPred, list_any_map]
  rw [e1]
  exact happ

/-- Writing the correct weight into the current slot preserves all slot
invariants. -/
theorem setSlot_post (body : List Line) (v : Nat) (wmc : List (Option ℚ))
    (m : Nat) (hlen : wmc.length = body.length) (hm : m < body.length)
    (hprev : ∀ i, i < m → SlotInv body v wmc i)
    (hnone : ∀ i, m ≤ i → i < body.length → wmc[i]? = some none)
    (w : ℚ)
    (hinvm : (cnt v (fun f => den body v f m) : ℚ) *
      2 ^ (scope body m).card = w * 2 ^ v) :
    (wmc.set m (some w)).length = body.length ∧
    (∀ i, i < m + 1 → SlotInv body v (wmc.set m (some w)) i) ∧
    (∀ i, m + 1 ≤ i → i < body.length →
      (wmc.set m (some w))[i]? = some none) := by
  have hmlen : m < wmc.length := by rw [hlen]; exact hm
  refine ⟨by simp [hlen], ?_, ?_⟩
  · intro i hi
    by_cases him : i = m
    · subst him
      exact ⟨w, by rw [List.getElem?_set_self hmlen], hinvm⟩
    · obtain ⟨w2, hw2, heq2⟩ := hprev i (by omega)
      exact ⟨w2, by
        rw [List.getElem?_set_ne (fun h => him h.symm)]
        exact hw2, heq2⟩
  · intro i hi1 hi2
    rw [List.getElem?_set_ne (by omega)]
    exact hnone i (by omega) hi2

/-- One well-formed body line preserves the evaluation invariant: the
current slot receives exactly the weight dictated by the circuit
semantics. -/
theorem nnfStep_inv (body : List Line) (v : Nat) (weights : List (Int × ℚ))
    (hwf : NnfWF body v) (hsem : NnfSem body v) (hones : AllOnes weights v)
    (m : Nat) (hm : m < body.length) (wmc : List (Option ℚ))
    (hlen : wmc.length = body.length)
    (hprev : ∀ i, i < m → SlotInv body v wmc i)
    (hnone : ∀ i, m ≤ i → i < body.length → wmc[i]? = some none) :
    ∃ wmc2 : List (Option ℚ),
      nnfStep weights ⟨wmc, m, true⟩ (lineAt body m) =
        .ok ⟨wmc2, m + 1, true⟩ ∧
      wmc2.length = body.length ∧
      (∀ i, i < m + 1 → SlotInv body v wmc2 i) ∧
      (∀ i, m + 1 ≤ i → i < body.length → wmc2[i]? = some none) := by
  have hbody : body[m]? = some (lineAt body m) := lineAt_eq hm
  have hlb := hwf m hm
  have hmlen : m < wmc.length := by rw [hlen]; exact hm
  have heta : lineAt body m =
      ⟨(lineAt body m).tag, (lineAt body m).args⟩ := rfl
  by_cases hL : (lineAt body m).tag = "L"
  · cases harg : (lineAt body m).args with
    | nil =>
      exfalso
      rw [lineWFb, if_pos hL, harg] at hlb
      exact Bool.noConfusion hlb
    | cons lit rest =>
      have hk : lit ≠ 0 ∧ lit.natAbs ≤ v := by
        rw [lineWFb, if_pos hL, harg] at hlb
        simpa using hlb
      have hline : lineAt body m = ⟨"L", lit :: rest⟩ := by
        rw [heta, hL, harg]
      have hstep := nnfStep_L weights ⟨wmc, m, true⟩ lit rest rfl
      rw [← hline] at hstep
      dsimp only at hstep
      rw [allOnes_lookup hones hk.1 hk.2] at hstep
      simp only [Option.getD_some, pySet_nat hmlen] at hstep
      have hinvm : (cnt v (fun f => den body v f m) : ℚ) *
          2 ^ (scope body m).card = 1 * 2 ^ v := by
        have hden : ∀ f : Fin v → Bool, den body v f m = litVal v f lit :=
          fun f => den_L_eq hbody hL harg f
        rw [cnt_congr hden, cnt_litVal v lit hk.1 hk.2,
          scope_L_eq hbody hL harg, Finset.card_singleton]
        have hv1 : 0 < v := by
          have := Int.natAbs_pos.mpr hk.1
          omega
        push_cast
        rw [pow_one, ← pow_succ, show v - 1 + 1 = v by omega, one_mul]
      obtain ⟨hp1, hp2, hp3⟩ :=
        setSlot_post body v wmc m hlen hm hprev hnone 1 hinvm
      exact ⟨wmc.set m (some 1), hstep, hp1, hp2, hp3⟩
  · by_cases hA : (lineAt body m).tag = "A"
    · cases harg : (lineAt body m).args with
      | nil =>
        exfalso
        rw [lineWFb, if_neg hL, if_pos hA, harg] at hlb
        exact Bool.noConfusion hlb
      | cons k cs =>
        have hwfa : k.toNat ≤ cs.length ∧
            ∀ c ∈ cs.take k.toNat, 0 ≤ c ∧ c.toNat < m := by
          rw [lineWFb, if_neg hL, if_pos hA, harg] at hlb
          simpa using hlb
        have hline : lineAt body m = ⟨"A", k :: cs⟩ := by
          rw [heta, hA, harg]
        have hcr : childRefs (lineAt body m) = cs.take k.toNat :=
          childRefs_A hA harg
        have hrefs : ∀ c ∈ childRefs (lineAt body m), 0 ≤ c ∧ c.toNat < m := by
          rw [hcr]
          exact hwfa.2
        have htake : (cs.take k.toNat).length = k.toNat := by
          simp [List.length_take, Nat.min_eq_left hwfa.1]
        have hset1 : (wmc.set m (some 1))[m]? = some (some 1) :=
          List.getElem?_set_self (by simpa using hmlen)
        have hloop := accLoop_spec (· * ·) m (k :: cs) 1 (slotW wmc)
          (cs.take k.toNat) 0 (wmc.set m (some 1)) 1 hset1
          (by
            intro t ht
            rw [htake] at ht
            rw [show (1 + (0 + t)) = t + 1 by omega, List.getElem?_cons_succ,
              List.getElem?_take_of_lt ht])
          (by
            intro c hc
            have h1 := hwfa.2 c hc
            have hne : c.toNat ≠ m := by omega
            refine ⟨h1.1, hne, ?_⟩
            rw [List.getElem?_set_ne (fun h => hne h.symm)]
            obtain ⟨w, hw, -⟩ := hprev c.toNat h1.2
            rw [slotW_eq hw rfl]
            exact hw)
        rw [htake] at hloop
        have hstep := nnfStep_A weights ⟨wmc, m, true⟩ k cs rfl
        rw [← hline] at hstep
        dsimp only at hstep
        simp only [pySet_nat hmlen, hloop, List.set_set, foldl_mul_eq,
          one_mul] at hstep
        have hinvm : (cnt v (fun f => den body v f m) : ℚ) *
            2 ^ (scope body m).card =
            ((cs.take k.toNat).map (slotW wmc)).prod * 2 ^ v := by
          have hden : ∀ f : Fin v → Bool, den body v f m =
              (cs.take k.toNat).all (fun c => den body v f c.toNat) := by
            intro f
            rw [den_A_eq hbody hA hrefs f, hcr]
          have hsc : scope body m =
              unionAll ((cs.take k.toNat).map (fun c => scope body c.toNat)) := by
            rw [scope_children_eq hbody hL hrefs, hcr]
          rw [cnt_congr hden, hsc]
          apply cnt_and_refs body v wmc (cs.take k.toNat)
            (fun c hc => hprev c.toNat (hwfa.2 c hc).2)
          have hp := ((hsem m hm).1 hA)
          rw [hcr] at hp
          exact hp
        obtain ⟨hp1, hp2, hp3⟩ :=
          setSlot_post body v wmc m hlen hm hprev hnone _ hinvm
        exact ⟨_, hstep, hp1, hp2, hp3⟩
    · by_cases hO : (lineAt body m).tag = "O"
      · cases harg : (lineAt body m).args with
        | nil =>
          exfalso
          rw [lineWFb, if_neg hL, if_neg hA, if_pos hO, harg] at hlb
          exact Bool.noConfusion hlb
        | cons j args2 =>
          cases harg2 : args2 with
          | nil =>
            exfalso
            rw [lineWFb, if_neg hL, if_neg hA, if_pos hO, harg, harg2] at hlb
            exact Bool.noConfusion hlb
          | cons k cs =>
            rw [harg2] at harg
            have hwfa : k.toNat ≤ cs.length ∧
                ∀ c ∈ cs.take k.toNat, 0 ≤ c ∧ c.toNat < m := by
              rw [lineWFb, if_neg hL, if_neg hA, if_pos hO, harg] at hlb
              simpa using hlb
            have hline : lineAt body m = ⟨"O", j :: k :: cs⟩ := by
              rw [heta, hO, harg]
            have hcr : childRefs (lineAt body m) = cs.take k.toNat :=
              childRefs_O hO harg
            have hrefs : ∀ c ∈ childRefs (lineAt body m),
                0 ≤ c ∧ c.toNat < m := by
              rw [hcr]
              exact hwfa.2
            have htake : (cs.take k.toNat).length = k.toNat := by
              simp [List.length_take, Nat.min_eq_left hwfa.1]
            have hset1 : (wmc.set m (some 0))[m]? = some (some 0) :=
              List.getElem?_set_self (by simpa using hmlen)
            have hloop := accLoop_spec (· + ·) m (j :: k :: cs) 2 (slotW wmc)
              (cs.take k.toNat) 0 (wmc.set m (some 0)) 0 hset1
              (by
                intro t ht
                rw [htake] at ht
                rw [show (2 + (0 + t)) = (t + 1) + 1 by omega,
                  List.getElem?_cons_succ, List.getElem?_cons_succ,
                  List.getElem?_take_of_lt ht])
              (by
                intro c hc
                have h1 := hwfa.2 c hc
                have hne : c.toNat ≠ m := by omega
                refine ⟨h1.1, hne, ?_⟩
                rw [List.getElem?_set_ne (fun h => hne h.symm)]
                obtain ⟨w, hw, -⟩ := hprev c.toNat h1.2
                rw [slotW_eq hw rfl]
                exact hw)
            rw [htake] at hloop
            have hstep := nnfStep_O weights ⟨wmc, m, true⟩ j k cs rfl
            rw [← hline] at hstep
            dsimp only at hstep
            simp only [pySet_nat hmlen, hloop, List.set_set, foldl_add_eq,
              zero_add] at hstep
            have hinvm : (cnt v (fun f => den body v f m) : ℚ) *
                2 ^ (scope body m).card =
                ((cs.take k.toNat).map (slotW wmc)).sum * 2 ^ v := by
              have hden : ∀ f : Fin v → Bool, den body v f m =
                  (cs.take k.toNat).any (fun c => den body v f c.toNat) := by
                intro f
                rw [den_O_eq hbody hO hrefs f, hcr]
              have hsc : scope body m =
                  unionAll ((cs.take k.toNat).map
                    (fun c => scope body c.toNat)) := by
                rw [scope_children_eq hbody hL hrefs, hcr]
              have hsmooth := ((hsem m hm).2 hO).1
              have hdet := ((hsem m hm).2 hO).2
              rw [hcr] at hsmooth hdet
              cases hsplit : cs.take k.toNat with
              | nil =>
                rw [hsplit] at hden hsc
                have hc0 : cnt v (fun f => den body v f m) =
                    cnt v (fun _ => false) := by
                  apply cnt_congr
                  intro f
                  rw [hden f]
                  rfl
                rw [hc0, cnt_false, hsc]
                simp [unionAll]
              | cons c0 crest =>
                have hc0mem : c0 ∈ cs.take k.toNat := by
                  rw [hsplit]
                  exact List.mem_cons_self c0 crest
                have hS : ∀ c ∈ cs.take k.toNat,
                    scope body c.toNat = scope body c0.toNat :=
                  fun c hc => hsmooth c hc c0 hc0mem
                have hscS : scope body m = scope body c0.toNat := by
                  rw [hsc]
                  apply foldr_union_const
                  · rw [hsplit]
                    simp
                  · intro t ht
                    obtain ⟨c, hc, rfl⟩ := List.mem_map.mp ht
                    exact hS c hc
                rw [cnt_congr hden, hscS]
                have hfin := cnt_or_refs body v wmc (cs.take k.toNat)
                  (scope body c0.toNat)
                  (fun c hc => hprev c.toNat (hwfa.2 c hc).2) hS hdet
                rw [hsplit] at hfin
                rw [hsplit]
                exact hfin
            obtain ⟨hp1, hp2, hp3⟩ :=
              setSlot_post body v wmc m hlen hm hprev hnone _ hinvm
            exact ⟨_, hstep, hp1, hp2, hp3⟩
      · exfalso
        rw [lineWFb, if_neg hL, if_neg hA, if_neg hO] at hlb
        exact Bool.noConfusion hlb

/-- Running the whole body from slot `m` establishes the invariant for
every slot. -/
theorem nnfRunFrom_inv (body : List Line) (v : Nat)
    (weights : List (Int × ℚ)) (hwf : NnfWF body v) (hsem : NnfSem body v)
    (hones : AllOnes weights v) :
    ∀ (rest : List Line) (m : Nat) (wmc : List (Option ℚ)),
      body.drop m = rest → m ≤ body.length →
      wmc.length = body.length →
      (∀ i, i < m → SlotInv body v wmc i) →
      (∀ i, m ≤ i → i < body.length → wmc[i]? = some none) →
      ∃ wmc2 : List (Option ℚ),
        nnfRunFrom weights ⟨wmc, m, true⟩ rest =
          .ok ⟨wmc2, body.length, true⟩ ∧
        wmc2.length = body.length ∧
        (∀ i, i < body.length → SlotInv body v wmc2 i) := by
  intro rest
  induction rest with
  | nil =>
    intro m wmc hdrop hle hlen hprev hnone
    have hm : m = body.length := by
      have := List.drop_eq_nil_iff.mp hdrop
      omega
    subst hm
    exact ⟨wmc, rfl, hlen, fun i hi => hprev i hi⟩
  | cons l rest ih =>
    intro m wmc hdrop hle hlen hprev hnone
    have hm : m < body.length := by
      by_contra hc
      rw [List.drop_eq_nil_of_le (by omega)] at hdrop
      exact List.noConfusion hdrop
    have hgot : body[m]? = some l := by
      have h0 : (body.drop m)[0]? = some l := by
        rw [hdrop]
        simp
      rwa [List.getElem?_drop, Nat.add_zero] at h0
    have hl : l = lineAt body m := by
      have h2 := lineAt_eq hm
      rw [hgot] at h2
      exact (Option.some.inj h2)
    have hdrop2 : body.drop (m + 1) = rest := by
      have h3 : (body.drop m).drop 1 = rest := by
        rw [hdrop]
        simp
      rw [List.drop_drop] at h3
      exact h3
    obtain ⟨wmc2, hstep, hlen2, hinv2, hnone2⟩ :=
      nnfStep_inv body v weights hwf hsem hones m hm wmc hlen hprev hnone
    rw [← hl] at hstep
    unfold nnfRunFrom
    rw [hstep]
    exact ih (m + 1) wmc2 hdrop2 (by omega) hlen2 hinv2 hnone2

/-- The NNF evaluator computes the model count: for a well-formed,
decomposable, smooth, deterministic body whose root slot covers all `v`
declared variables, evaluation under an all-ones weight table returns
exactly the number of satisfying assignments. -/
theorem nnf_wmc_modelcount (body : List Line) (v : Nat)
    (weights : List (Int × ℚ)) (n e vv : Int)
    (hn : body.length = n.toNat) (hpos : 0 < body.length)
    (hwf : NnfWF body v) (hsem : NnfSem body v) (hones : AllOnes weights v)
    (hroot : scope body (body.length - 1) = Finset.range v) :
    nnf_file_wmc (⟨"nnf", [n, e, vv]⟩ :: body) weights =
      .ok (some ((nnfModelCount body v : ℕ) : ℚ)) := by
  have hfirst : nnfStep weights ⟨[], 0, false⟩ ⟨"nnf", [n, e, vv]⟩ =
      .ok ⟨List.replicate n.toNat none, 0, true⟩ :=
    nnfStep_header weights ⟨[], 0, false⟩ n [e, vv]
  have hlen0 : (List.replicate n.toNat (none : Option ℚ)).length =
      body.length := by
    rw [List.length_replicate, hn]
  obtain ⟨wmc2, hrun, hlen2, hinv2⟩ :=
    nnfRunFrom_inv body v weights hwf hsem hones body 0
      (List.replicate n.toNat none) rfl (by omega) hlen0
      (fun i hi => absurd hi (by omega))
      (fun i _ hi2 => by
        rw [List.getElem?_replicate, if_pos (by omega)])
  obtain ⟨w, hw, heq⟩ := hinv2 (body.length - 1) (by omega)
  have hcard : (scope body (body.length - 1)).card = v := by
    rw [hroot, Finset.card_range]
  rw [hcard] at heq
  have h2v : ((2 : ℚ) ^ v) ≠ 0 := by positivity
  have hwval : w = ((nnfModelCount body v : ℕ) : ℚ) := by
    have := mul_right_cancel₀ h2v heq
    rw [← this]
    rfl
  subst hwval
  rw [nnf_file_wmc, nnfRun]
  unfold nnfRunFrom
  rw [hfirst]
  dsimp only
  rw [hrun]
  apply pyGet_neg_one
  have hlx : wmc2.length - 1 = body.length - 1 := by omega
  rw [hlx]
  exact hw

theorem defIdx_sound :
    ∀ (body : List Line) (r : Int) (p : Nat), defIdx body r = some p →
      p < body.length ∧ defId (lineAt body p) = some r
  | [], r, p, h => by simp [defIdx] at h
  | l :: rest, r, p, h => by
    rw [defIdx] at h
    by_cases hd : defId l = some r
    · rw [if_pos hd] at h
      injection h with h1
      subst h1
      exact ⟨by simp, by simpa [lineAt] using hd⟩
    · rw [if_neg hd] at h
      cases hq : defIdx rest r with
      | none =>
        rw [hq] at h
        exact Option.noConfusion h
      | some q =>
        rw [hq] at h
        simp only [Option.map_some'] at h
        injection h with h1
        subst h1
        have hrec := defIdx_sound rest r q hq
        refine ⟨by simpa using Nat.succ_lt_succ hrec.1, ?_⟩
        simpa [lineAt] using hrec.2

theorem resolve_some {body : List Line} {i : Nat} {r : Int} {p : Nat}
    (h : resolve body i r = some p) :
    defIdx body r = some p ∧ p < i := by
  unfold resolve at h
  cases hq : defIdx body r with
  | none =>
    rw [hq] at h
    dsimp only at h
    exact Option.noConfusion h
  | some q =>
    rw [hq] at h
    dsimp only at h
    by_cases hlt : q < i
    · rw [if_pos hlt] at h
      injection h with h1
      subst h1
      exact ⟨rfl, hlt⟩
    · rw [if_neg hlt] at h
      exact Option.noConfusion h

theorem pairUp_length : ∀ (xs : List Int), (pairUp xs).length = xs.length / 2
  | [] => by
    show (0 : Nat) = 0 / 2
    simp
  | [_] => by
    show (0 : Nat) = 1 / 2
    simp
  | a :: b :: rest => by
    show (pairUp rest).length + 1 = (rest.length + 1 + 1) / 2
    rw [pairUp_length rest]
    omega

theorem pairUp_getElem? :
    ∀ (xs : List Int) (j : Nat) (pr : Int × Int),
      (pairUp xs)[j]? = some pr →
      xs[2 * j]? = some pr.1 ∧ xs[2 * j + 1]? = some pr.2
  | [], j, pr, h => by simp [pairUp] at h
  | [a], j, pr, h => by simp [pairUp] at h
  | a :: b :: rest, 0, pr, h => by
    simp only [pairUp, List.getElem?_cons_zero] at h
    injection h with h1
    subst h1
    constructor <;> simp
  | a :: b :: rest, j + 1, pr, h => by
    simp only [pairUp, List.getElem?_cons_succ] at h
    have hrec := pairUp_getElem? rest j pr h
    have e1 : 2 * (j + 1) = (2 * j) + 1 + 1 := by omega
    have e2 : 2 * (j + 1) + 1 = ((2 * j) + 1) + 1 + 1 := by omega
    rw [e2, e1]
    simpa using hrec

/-- A well-formed SDD line defines an id inside the slot range. -/
theorem wf_defId {body : List Line} {n : Int} {v : Nat} {i : Nat} {l : Line}
    (h : sddLineWFb body n v i l = true) :
    ∃ id, defId l = some id ∧ 0 ≤ id ∧ id.toNat < n.toNat := by
  unfold sddLineWFb at h
  unfold defId
  by_cases hL : l.tag = "L"
  · rw [if_pos hL] at h
    rw [if_pos (Or.inl hL)]
    cases harg : l.args with
    | nil => rw [harg] at h; exact Bool.noConfusion h
    | cons id rest1 =>
      cases rest1 with
      | nil => rw [harg] at h; exact Bool.noConfusion h
      | cons vt rest2 =>
        cases rest2 with
        | nil => rw [harg] at h; exact Bool.noConfusion h
        | cons lit rest =>
          rw [harg] at h
          simp only [Bool.and_eq_true, decide_eq_true_eq, and_assoc] at h
          obtain ⟨h0, hn, -⟩ := h
          exact ⟨id, by simp [harg], h0, hn⟩
  · rw [if_neg hL] at h
    by_cases hFT : l.tag = "F" ∨ l.tag = "T"
    · rw [if_pos hFT] at h
      rw [if_pos (by tauto)]
      cases harg : l.args with
      | nil => rw [harg] at h; exact Bool.noConfusion h
      | cons id rest =>
        rw [harg] at h
        simp only [Bool.and_eq_true, decide_eq_true_eq, and_assoc] at h
        obtain ⟨h0, hn⟩ := h
        exact ⟨id, by simp [harg], h0, hn⟩
    · rw [if_neg hFT] at h
      by_cases hD : l.tag = "D"
      · rw [if_pos hD] at h
        rw [if_pos (Or.inr (Or.inr (Or.inr hD)))]
        cases harg : l.args with
        | nil => rw [harg] at h; exact Bool.noConfusion h
        | cons id rest1 =>
          cases rest1 with
          | nil => rw [harg] at h; exact Bool.noConfusion h
          | cons vt rest2 =>
            cases rest2 with
            | nil => rw [harg] at h; exact Bool.noConfusion h
            | cons k elmts =>
              rw [harg] at h
              simp only [Bool.and_eq_true, decide_eq_true_eq, and_assoc] at h
              obtain ⟨h0, hn, -⟩ := h
              exact ⟨id, by simp [harg], h0, hn⟩
      · rw [if_neg hD] at h
        exact Bool.noConfusion h

/-- Under line well-formedness, a resolved reference is a nonnegative id
inside the slot range, defined strictly inside the body. -/
theorem resolve_ref_bounds {body : List Line} {n : Int} {v : Nat}
    (hwfall : ∀ i, i < body.length →
      sddLineWFb body n v i (lineAt body i) = true)
    {m : Nat} {r : Int} {p : Nat} (hres : resolve body m r = some p) :
    0 ≤ r ∧ r.toNat < n.toNat ∧ p < body.length := by
  obtain ⟨hdef, hlt⟩ := resolve_some hres
  obtain ⟨hplen, hdefp⟩ := defIdx_sound body r p hdef
  obtain ⟨id, hid, h0, hn⟩ := wf_defId (hwfall p hplen)
  rw [hdefp] at hid
  injection hid with h1
  subst h1
  exact ⟨h0, hn, hplen⟩

theorem denSF_fuel (body : List Line) (v : Nat) (f : Fin v → Bool) :
    ∀ (i f1 f2 : Nat), i < f1 → i < f2 →
      denSF body v f f1 i = denSF body v f f2 i := by
  intro i
  induction i using Nat.strong_induction_on with
  | _ i ih =>
    intro f1 f2 h1 h2
    obtain ⟨g1, rfl⟩ : ∃ g1, f1 = g1 + 1 := ⟨f1 - 1, by omega⟩
    obtain ⟨g2, rfl⟩ : ∃ g2, f2 = g2 + 1 := ⟨f2 - 1, by omega⟩
    simp only [denSF]
    cases body[i]? with
    | none => rfl
    | some l =>
      dsimp only
      by_cases hL : l.tag = "L"
      · rw [if_pos hL, if_pos hL]
      · rw [if_neg hL, if_neg hL]
        by_cases hF : l.tag = "F"
        · rw [if_pos hF, if_pos hF]
        · rw [if_neg hF, if_neg hF]
          by_cases hT : l.tag = "T"
          · rw [if_pos hT, if_pos hT]
          · rw [if_neg hT, if_neg hT]
            by_cases hD : l.tag = "D"
            · rw [if_pos hD, if_pos hD]
              apply list_any_congr
              intro pr hpr
              cases hr1 : resolve body i pr.1 with
              | none => rfl
              | some p =>
                cases hr2 : resolve body i pr.2 with
                | none => rfl
                | some q =>
                  dsimp only
                  have hp := (resolve_some hr1).2
                  have hq2 := (resolve_some hr2).2
                  rw [ih p hp g1 g2 (by omega) (by omega),
                    ih q hq2 g1 g2 (by omega) (by omega)]
            · rw [if_neg hD, if_neg hD]

theorem scopeSF_fuel (body : List Line) :
    ∀ (i f1 f2 : Nat), i < f1 → i < f2 →
      scopeSF body f1 i = scopeSF body f2 i := by
  intro i
  induction i using Nat.strong_induction_on with
  | _ i ih =>
    intro f1 f2 h1 h2
    obtain ⟨g1, rfl⟩ : ∃ g1, f1 = g1 + 1 := ⟨f1 - 1, by omega⟩
    obtain ⟨g2, rfl⟩ : ∃ g2, f2 = g2 + 1 := ⟨f2 - 1, by omega⟩
    simp only [scopeSF]
    cases body[i]? with
    | none => rfl
    | some l =>
      dsimp only
      by_cases hL : l.tag = "L"
      · rw [if_pos hL, if_pos hL]
      · rw [if_neg hL, if_neg hL]
        by_cases hD : l.tag = "D"
        · rw [if_pos hD, if_pos hD]
          congr 1
          apply list_map_congr
          intro pr hpr
          cases hr1 : resolve body i pr.1 with
          | none => rfl
          | some p =>
            cases hr2 : resolve body i pr.2 with
            | none => rfl
            | some q =>
              dsimp only
              have hp := (resolve_some hr1).2
              have hq2 := (resolve_some hr2).2
              rw [ih p hp g1 g2 (by omega) (by omega),
                ih q hq2 g1 g2 (by omega) (by omega)]
        · rw [if_neg hD, if_neg hD]

theorem denS_unfold (body : List Line) (v : Nat) (f : Fin v → Bool)
    (i : Nat) :
    denS body v f i =
      match body[i]? with
      | none => false
      | some l =>
        if l.tag = "L" then
          match l.args with
          | _ :: _ :: lit :: _ => litVal v f lit
          | _ => false
        else if l.tag = "F" then false
        else if l.tag = "T" then true
        else if l.tag = "D" then
          (elemRefs l).any (fun pr =>
            match resolve body i pr.1, resolve body i pr.2 with
            | some p, some q => denS body v f p && denS body v f q
            | _, _ => false)
        else false := by
  show denSF body v f (i + 1) i = _
  simp only [denSF]
  cases body[i]? with
  | none => rfl
  | some l =>
    dsimp only
    by_cases hL : l.tag = "L"
    · rw [if_pos hL, if_pos hL]
    · rw [if_neg hL, if_neg hL]
      by_cases hF : l.tag = "F"
      · rw [if_pos hF, if_pos hF]
      · rw [if_neg hF, if_neg hF]
        by_cases hT : l.tag = "T"
        · rw [if_pos hT, if_pos hT]
        · rw [if_neg hT, if_neg hT]
          by_cases hD : l.tag = "D"
          · rw [if_pos hD, if_pos hD]
            apply list_any_congr
            intro pr hpr
            cases hr1 : resolve body i pr.1 with
            | none => rfl
            | some p =>
              cases hr2 : resolve body i pr.2 with
              | none => rfl
              | some q =>
                dsimp only
                rw [show denS body v f p = denSF body v f i p from
                    denSF_fuel body v f p (p + 1) i (by omega)
                      (resolve_some hr1).2,
                  show denS body v f q = denSF body v f i q from
                    denSF_fuel body v f q (q + 1) i (by omega)
                      (resolve_some hr2).2]
          · rw [if_neg hD, if_neg hD]

theorem scopeS_unfold (body : List Line) (i : Nat) :
    scopeS body i =
      match body[i]? with
      | none => ∅
      | some l =>
        if l.tag = "L" then
          match l.args with
          | _ :: _ :: lit :: _ => {lit.natAbs - 1}
          | _ => ∅
        else if l.tag = "D" then
          unionAll ((elemRefs l).map (fun pr =>
            match resolve body i pr.1, resolve body i pr.2 with
            | some p, some q => scopeS body p ∪ scopeS body q
            | _, _ => ∅))
        else ∅ := by
  show scopeSF body (i + 1) i = _
  simp only [scopeSF]
  cases body[i]? with
  | none => rfl
  | some l =>
    dsimp only
    by_cases hL : l.tag = "L"
    · rw [if_pos hL, if_pos hL]
    · rw [if_neg hL, if_neg hL]
      by_cases hD : l.tag = "D"
      · rw [if_pos hD, if_pos hD]
        congr 1
        apply list_map_congr
        intro pr hpr
        cases hr1 : resolve body i pr.1 with
        | none => rfl
        | some p =>
          cases hr2 : resolve body i pr.2 with
          | none => rfl
          | some q =>
            dsimp only
            rw [show scopeS body p = scopeSF body i p from
                scopeSF_fuel body p (p + 1) i (by omega) (resolve_some hr1).2,
              show scopeS body q = scopeSF body i q from
                scopeSF_fuel body q (q + 1) i (by omega) (resolve_some hr2).2]
      · rw [if_neg hD, if_neg hD]

theorem elemRefs_D {l : Line} {id vt k : Int} {elmts : List Int}
    (htag : l.tag = "D") (harg : l.args = id :: vt :: k :: elmts) :
    elemRefs l = pairUp (elmts.take (2 * k.toNat)) := by
  unfold elemRefs
  rw [if_pos htag, harg]

theorem denS_L_eq {body : List Line} {v : Nat} {m : Nat} {l : Line}
    {id vt lit : Int} {rest : List Int} (hbody : body[m]? = some l)
    (htag : l.tag = "L") (harg : l.args = id :: vt :: lit :: rest)
    (f : Fin v → Bool) : denS body v f m = litVal v f lit := by
  rw [denS_unfold, hbody]
  dsimp only
  rw [if_pos htag, harg]

theorem scopeS_L_eq {body : List Line} {m : Nat} {l : Line}
    {id vt lit : Int} {rest : List Int} (hbody : body[m]? = some l)
    (htag : l.tag = "L") (harg : l.args = id :: vt :: lit :: rest) :
    scopeS body m = {lit.natAbs - 1} := by
  rw [scopeS_unfold, hbody]
  dsimp only
  rw [if_pos htag, harg]

theorem denS_F_eq {body : List Line} {v : Nat} {m : Nat} {l : Line}
    (hbody : body[m]? = some l) (htag : l.tag = "F") (f : Fin v → Bool) :
    denS body v f m = false := by
  rw [denS_unfold, hbody]
  dsimp only
  rw [if_neg (by simp [htag]), if_pos htag]

theorem denS_T_eq {body : List Line} {v : Nat} {m : Nat} {l : Line}
    (hbody : body[m]? = some l) (htag : l.tag = "T") (f : Fin v → Bool) :
    denS body v f m = true := by
  rw [denS_unfold, hbody]
  dsimp only
  rw [if_neg (by simp [htag]), if_neg (by simp [htag]), if_pos htag]

theorem scopeS_FT_eq {body : List Line} {m : Nat} {l : Line}
    (hbody : body[m]? = some l) (htagL : l.tag ≠ "L") (htagD : l.tag ≠ "D") :
    scopeS body m = ∅ := by
  rw [scopeS_unfold, hbody]
  dsimp only
  rw [if_neg htagL, if_neg htagD]

theorem denS_D_eq {body : List Line} {v : Nat} {m : Nat} {l : Line}
    (hbody : body[m]? = some l) (htag : l.tag = "D")
    (hres : ∀ pr ∈ elemRefs l, (resolve body m pr.1).isSome = true ∧
      (resolve body m pr.2).isSome = true) (f : Fin v → Bool) :
    denS body v f m = (elemRefs l).any (fun pr => elemDen body v m pr f) := by
  rw [denS_unfold, hbody]
  dsimp only
  rw [if_neg (by simp [htag]), if_neg (by simp [htag]),
    if_neg (by simp [htag]), if_pos htag]
  apply list_any_congr
  intro pr hpr
  obtain ⟨h1, h2⟩ := hres pr hpr
  cases hr1 : resolve body m pr.1 with
  | none => rw [hr1] at h1; exact Bool.noConfusion h1
  | some p =>
    cases hr2 : resolve body m pr.2 with
    | none => rw [hr2] at h2; exact Bool.noConfusion h2
    | some q =>
      dsimp only
      rw [elemDen, resIdx, resIdx, hr1, hr2]
      rfl

theorem scopeS_D_eq {body : List Line} {m : Nat} {l : Line}
    (hbody : body[m]? = some l) (htag : l.tag = "D")
    (hres : ∀ pr ∈ elemRefs l, (resolve body m pr.1).isSome = true ∧
      (resolve body m pr.2).isSome = true) :
    scopeS body m =
      unionAll ((elemRefs l).map (fun pr => elemScope body m pr)) := by
  rw [scopeS_unfold, hbody]
  dsimp only
  rw [if_neg (by simp [htag]), if_pos htag]
  congr 1
  apply list_map_congr
  intro pr hpr
  obtain ⟨h1, h2⟩ := hres pr hpr
  cases hr1 : resolve body m pr.1 with
  | none => rw [hr1] at h1; exact Bool.noConfusion h1
  | some p =>
    cases hr2 : resolve body m pr.2 with
    | none => rw [hr2] at h2; exact Bool.noConfusion h2
    | some q =>
      dsimp only
      rw [elemScope, resIdx, resIdx, hr1, hr2]
      rfl

/-- The denotation of an SDD line depends only on its scope. -/
theorem denS_dep (body : List Line) (v : Nat) :
    ∀ i, DepOn v (fun f => denS body v f i) (scopeS body i) := by
  intro i
  induction i using Nat.strong_induction_on with
  | _ i ih =>
    intro f g hagree
    show denS body v f i = denS body v g i
    rw [denS_unfold body v f i, denS_unfold body v g i]
    rw [scopeS_unfold body i] at hagree
    cases hbody : body[i]? with
    | none => rfl
    | some l =>
      rw [hbody] at hagree
      obtain ⟨tag, args⟩ := l
      dsimp only at hagree ⊢
      by_cases hL : tag = "L"
      · subst hL
        rw [if_pos rfl, if_pos rfl]
        rw [if_pos rfl] at hagree
        cases args with
        | nil => rfl
        | cons a args1 =>
          cases args1 with
          | nil => rfl
          | cons b args2 =>
            cases args2 with
            | nil => rfl
            | cons lit rest => exact DepOn_litVal v lit f g hagree
      · rw [if_neg hL, if_neg hL]
        rw [if_neg hL] at hagree
        by_cases hF : tag = "F"
        · rw [if_pos hF, if_pos hF]
        · rw [if_neg hF, if_neg hF]
          by_cases hT : tag = "T"
          · rw [if_pos hT, if_pos hT]
          · rw [if_neg hT, if_neg hT]
            by_cases hD : tag = "D"
            · rw [if_pos hD, if_pos hD]
              rw [if_pos hD] at hagree
              apply list_any_congr
              intro pr hpr
              cases hr1 : resolve body i pr.1 with
              | none => rfl
              | some p =>
                cases hr2 : resolve body i pr.2 with
                | none => rfl
                | some q =>
                  dsimp only
                  have hmem : (match resolve body i pr.1,
                      resolve body i pr.2 with
                    | some p, some q => scopeS body p ∪ scopeS body q
                    | _, _ => (∅ : Finset Nat)) ∈
                      (elemRefs ⟨tag, args⟩).map (fun pr =>
                        match resolve body i pr.1, resolve body i pr.2 with
                        | some p, some q => scopeS body p ∪ scopeS body q
                        | _, _ => ∅) := List.mem_map_of_mem _ hpr
                  rw [hr1, hr2] at hmem
                  have hsub : scopeS body p ∪ scopeS body q ⊆
                      unionAll ((elemRefs ⟨tag, args⟩).map (fun pr =>
                        match resolve body i pr.1, resolve body i pr.2 with
                        | some p, some q => scopeS body p ∪ scopeS body q
                        | _, _ => ∅)) :=
                    subset_foldr_union _ _ hmem
                  have e1 : denS body v f p = denS body v g p :=
                    ih p (resolve_some hr1).2 f g (fun ix hix =>
                      hagree ix (hsub (Finset.mem_union_left _ hix)))
                  have e2 : denS body v f q = denS body v g q :=
                    ih q (resolve_some hr2).2 f g (fun ix hix =>
                      hagree ix (hsub (Finset.mem_union_right _ hix)))
                  rw [e1, e2]
            · rw [if_neg hD, if_neg hD]

/-- Conjoining two predicates with disjoint supports multiplies the
scaled counts. -/
theorem cnt_and_pair (v : Nat) (P Q : (Fin v → Bool) → Bool)
    (Sp Sq : Finset Nat) (wp wq : ℚ)
    (hP : DepOn v P Sp) (hQ : DepOn v Q Sq) (hd : Disjoint Sp Sq)
    (hip : (cnt v P : ℚ) * 2 ^ Sp.card = wp * 2 ^ v)
    (hiq : (cnt v Q : ℚ) * 2 ^ Sq.card = wq * 2 ^ v) :
    (cnt v (fun f => P f && Q f) : ℚ) * 2 ^ ((Sp ∪ Sq).card) =
      wp * wq * 2 ^ v := by
  have happ := cnt_andPred v [(P, Sp, wp), (Q, Sq, wq)]
    (by
      intro t ht
      simp only [List.mem_cons, List.not_mem_nil, or_false] at ht
      rcases ht with rfl | rfl
      · exact hP
      · exact hQ)
    (by
      intro t ht
      simp only [List.mem_cons, List.not_mem_nil, or_false] at ht
      rcases ht with rfl | rfl
      · exact hip
      · exact hiq)
    (by
      constructor
      · intro b hb
        simp only [List.mem_cons, List.not_mem_nil, or_false] at hb
        subst hb
        exact hd
      · simp)
  simp only [List.map_cons, List.map_nil, List.prod_cons, List.prod_nil,
    mul_one] at happ
  have e1 : cnt v (fun f => P f && Q f) = cnt v (andPred [P, Q]) := by
    apply cnt_congr
    intro f
    simp [andPred]
  have e2 : unionAll [Sp, Sq] = Sp ∪ Sq := by
    simp [unionAll]
  rw [e1, ← e2]
  exact happ

theorem sum_range_getD {α : Type} (g : α → ℚ) (d : α) :
    ∀ (l : List α),
      ∑ j in Finset.range l.length, g (l.getD j d) = (l.map g).sum
  | [] => by simp
  | a :: t => by
    rw [List.length_cons, Finset.sum_range_succ']
    simp only [List.getD_cons_succ, List.getD_cons_zero, List.map_cons,
      List.sum_cons]
    rw [sum_range_getD g d t]
    ring

/-- Reading the slot of a resolved reference returns the weight carrying
the referenced line's invariant. -/
theorem slot_of_resolve {body : List Line} {v : Nat} {wmc : List (Option ℚ)}
    {m : Nat} {r : Int} {p : Nat}
    (hres : resolve body m r = some p)
    (hprev : ∀ j, j < m → SlotInvS body v wmc j) :
    ∃ w : ℚ, wmc[r.toNat]? = some (some w) ∧
      (cnt v (fun f => denS body v f p) : ℚ) * 2 ^ (scopeS body p).card =
        w * 2 ^ v := by
  obtain ⟨hdef, hlt⟩ := resolve_some hres
  obtain ⟨hplen, hdefp⟩ := defIdx_sound body r p hdef
  obtain ⟨w, hw, heq⟩ := hprev p hlt
  have hid : idOf body p = r := by
    rw [idOf, hdefp]
    rfl
  rw [hid] at hw
  exact ⟨w, hw, heq⟩

/-- Writing the correct weight into the defined id's slot preserves every
slot invariant (ids are pairwise distinct). -/
theorem setSlotS_post (body : List Line) (n : Int) (v : Nat)
    (hwf : SddWF body n v)
    (wmc : List (Option ℚ)) (m : Nat) (hm : m < body.length)
    (hlen : wmc.length = n.toNat)
    (hprev : ∀ j, j < m → SlotInvS body v wmc j)
    (w : ℚ)
    (hinvm : (cnt v (fun f => denS body v f m) : ℚ) *
      2 ^ (scopeS body m).card = w * 2 ^ v) :
    (wmc.set (idOf body m).toNat (some w)).length = n.toNat ∧
    (∀ j, j < m + 1 →
      SlotInvS body v (wmc.set (idOf body m).toNat (some w)) j) := by
  obtain ⟨idm, hidm, h0m, hnm⟩ := wf_defId (hwf.1 m hm)
  have hido : idOf body m = idm := by
    rw [idOf, hidm]
    rfl
  have hslot : (idOf body m).toNat < wmc.length := by
    rw [hido, hlen]
    exact hnm
  refine ⟨by simp [hlen], ?_⟩
  intro j hj
  by_cases hjm : j = m
  · subst hjm
    exact ⟨w, by rw [List.getElem?_set_self hslot], hinvm⟩
  · have hjlt : j < m := by omega
    obtain ⟨w2, hw2, heq2⟩ := hprev j hjlt
    obtain ⟨idj, hidj, h0j, hnj⟩ := wf_defId (hwf.1 j (by omega))
    have hne : defId (lineAt body j) ≠ defId (lineAt body m) :=
      hwf.2 j (by omega) m hm (by omega)
    rw [hidj, hidm] at hne
    have hido2 : idOf body j = idj := by
      rw [idOf, hidj]
      rfl
    have hneN : (idOf body m).toNat ≠ (idOf body j).toNat := by
      rw [hido, hido2]
      intro hc
      apply hne
      congr 1
      omega
    exact ⟨w2, by rw [List.getElem?_set_ne hneN]; exact hw2, heq2⟩

/-- One well-formed SDD body line preserves the evaluation invariant. -/
theorem sddStep_inv (body : List Line) (v : Nat) (weights : List (Int × ℚ))
    (n : Int) (hwf : SddWF body n v) (hsem : SddSem body v)
    (hones : AllOnes weights v)
    (m : Nat) (hm : m < body.length) (wmc : List (Option ℚ))
    (hlen : wmc.length = n.toNat)
    (hprev : ∀ j, j < m → SlotInvS body v wmc j) :
    ∃ wmc2 : List (Option ℚ),
      sddStep weights ⟨wmc, m, true⟩ (lineAt body m) =
        .ok ⟨wmc2, m + 1, true⟩ ∧
      wmc2.length = n.toNat ∧
      (∀ j, j < m + 1 → SlotInvS body v wmc2 j) := by
  have hbody : body[m]? = some (lineAt body m) := lineAt_eq hm
  have hlb := hwf.1 m hm
  have heta : lineAt body m =
      ⟨(lineAt body m).tag, (lineAt body m).args⟩ := rfl
  by_cases hL : (lineAt body m).tag = "L"
  · cases harg : (lineAt body m).args with
    | nil =>
      exfalso
      rw [sddLineWFb, if_pos hL, harg] at hlb
      exact Bool.noConfusion hlb
    | cons id rest1 =>
      cases rest1 with
      | nil =>
        exfalso
        rw [sddLineWFb, if_pos hL, harg] at hlb
        exact Bool.noConfusion hlb
      | cons vt rest2 =>
        cases rest2 with
        | nil =>
          exfalso
          rw [sddLineWFb, if_pos hL, harg] at hlb
          exact Bool.noConfusion hlb
        | cons lit rest =>
          rw [sddLineWFb, if_pos hL, harg] at hlb
          simp only [Bool.and_eq_true, decide_eq_true_eq, and_assoc] at hlb
          obtain ⟨h0, hn, hlit0, hlitv⟩ := hlb
          have hline : lineAt body m = ⟨"L", id :: vt :: lit :: rest⟩ := by
            rw [heta, hL, harg]
          have hlt' : id.toNat < wmc.length := by
            rw [hlen]
            exact hn
          have hstep := sddStep_L weights ⟨wmc, m, true⟩ id vt lit rest rfl
          rw [← hline] at hstep
          dsimp only at hstep
          rw [allOnes_lookup hones hlit0 hlitv] at hstep
          simp only [Option.getD_some, pySet_int h0 hlt'] at hstep
          have hinvm : (cnt v (fun f => denS body v f m) : ℚ) *
              2 ^ (scopeS body m).card = 1 * 2 ^ v := by
            have hden : ∀ f : Fin v → Bool,
                denS body v f m = litVal v f lit :=
              fun f => denS_L_eq hbody hL harg f
            rw [cnt_congr hden, cnt_litVal v lit hlit0 hlitv,
              scopeS_L_eq hbody hL harg, Finset.card_singleton]
            have hv1 : 0 < v := by
              have := Int.natAbs_pos.mpr hlit0
              omega
            push_cast
            rw [pow_one, ← pow_succ, show v - 1 + 1 = v by omega, one_mul]
          obtain ⟨hp1, hp2⟩ :=
            setSlotS_post body n v hwf wmc m hm hlen hprev 1 hinvm
          have hid : idOf body m = id := by
            rw [idOf, hline]
            simp [defId]
          rw [hid] at hp1 hp2
          exact ⟨_, hstep, hp1, hp2⟩
  · by_cases hFT : (lineAt body m).tag = "F" ∨ (lineAt body m).tag = "T"
    · cases harg : (lineAt body m).args with
      | nil =>
        exfalso
        rw [sddLineWFb, if_neg hL, if_pos hFT, harg] at hlb
        exact Bool.noConfusion hlb
      | cons id rest =>
        rw [sddLineWFb, if_neg hL, if_pos hFT, harg] at hlb
        simp only [Bool.and_eq_true, decide_eq_true_eq] at hlb
        obtain ⟨h0, hn⟩ := hlb
        have hlt' : id.toNat < wmc.length := by
          rw [hlen]
          exact hn
        rcases hFT with hF | hT
        · have hline : lineAt body m = ⟨"F", id :: rest⟩ := by
            rw [heta, hF, harg]
          have hstep := sddStep_F weights ⟨wmc, m, true⟩ id rest rfl
          rw [← hline] at hstep
          dsimp only at hstep
          simp only [pySet_int h0 hlt'] at hstep
          have hinvm : (cnt v (fun f => denS body v f m) : ℚ) *
              2 ^ (scopeS body m).card = 0 * 2 ^ v := by
            have hden : ∀ f : Fin v → Bool, denS body v f m = false :=
              fun f => denS_F_eq hbody hF f
            rw [cnt_congr hden, cnt_false,
              scopeS_FT_eq hbody hL (by simp [hF])]
            simp
          obtain ⟨hp1, hp2⟩ :=
            setSlotS_post body n v hwf wmc m hm hlen hprev 0 hinvm
          have hid : idOf body m = id := by
            rw [idOf, hline]
            simp [defId]
          rw [hid] at hp1 hp2
          exact ⟨_, hstep, hp1, hp2⟩
        · have hline : lineAt body m = ⟨"T", id :: rest⟩ := by
            rw [heta, hT, harg]
          have hstep := sddStep_T weights ⟨wmc, m, true⟩ id rest rfl
          rw [← hline] at hstep
          dsimp only at hstep
          simp only [pySet_int h0 hlt'] at hstep
          have hinvm : (cnt v (fun f => denS body v f m) : ℚ) *
              2 ^ (scopeS body m).card = 1 * 2 ^ v := by
            have hden : ∀ f : Fin v → Bool, denS body v f m = true :=
              fun f => denS_T_eq hbody hT f
            rw [cnt_congr hden, cnt_true,
              scopeS_FT_eq hbody hL (by simp [hT])]
            push_cast
            simp
          obtain ⟨hp1, hp2⟩ :=
            setSlotS_post body n v hwf wmc m hm hlen hprev 1 hinvm
          have hid : idOf body m = id := by
            rw [idOf, hline]
            simp [defId]
          rw [hid] at hp1 hp2
          exact ⟨_, hstep, hp1, hp2⟩
    · by_cases hD : (lineAt body m).tag = "D"
      · cases harg : (lineAt body m).args with
        | nil =>
          exfalso
          rw [sddLineWFb, if_neg hL, if_neg hFT, if_pos hD, harg] at hlb
          exact Bool.noConfusion hlb
        | cons id rest1 =>
          cases rest1 with
          | nil =>
            exfalso
            rw [sddLineWFb, if_neg hL, if_neg hFT, if_pos hD, harg] at hlb
            exact Bool.noConfusion hlb
          | cons vt rest2 =>
            cases rest2 with
            | nil =>
              exfalso
              rw [sddLineWFb, if_neg hL, if_neg hFT, if_pos hD, harg] at hlb
              exact Bool.noConfusion hlb
            | cons k elmts =>
              rw [sddLineWFb, if_neg hL, if_neg hFT, if_pos hD, harg] at hlb
              simp only [Bool.and_eq_true, decide_eq_true_eq, and_assoc,
                List.all_eq_true] at hlb
              obtain ⟨h0, hn, hklen, hrefs⟩ := hlb
              have hline : lineAt body m = ⟨"D", id :: vt :: k :: elmts⟩ := by
                rw [heta, hD, harg]
              have hcr : elemRefs (lineAt body m) =
                  pairUp (elmts.take (2 * k.toNat)) := elemRefs_D hD harg
              have hlt' : id.toNat < wmc.length := by
                rw [hlen]
                exact hn
              have hreflen : (pairUp (elmts.take (2 * k.toNat))).length =
                  k.toNat := by
                rw [pairUp_length, List.length_take]
                omega
              have hres_all : ∀ pr ∈ elemRefs (lineAt body m),
                  (resolve body m pr.1).isSome = true ∧
                  (resolve body m pr.2).isSome = true := by
                rw [hcr]
                exact hrefs
              have hloop := sddDLoop_spec wmc elmts
                (fun j => slotW wmc
                  ((pairUp (elmts.take (2 * k.toNat))).getD j (0, 0)).1)
                (fun j => slotW wmc
                  ((pairUp (elmts.take (2 * k.toNat))).getD j (0, 0)).2)
                k.toNat 0 0
                (by
                  intro j hj0 hjk
                  have hjlen : j <
                      (pairUp (elmts.take (2 * k.toNat))).length := by
                    rw [hreflen]
                    omega
                  have hget : (pairUp (elmts.take (2 * k.toNat)))[j]? =
                      some ((pairUp (elmts.take (2 * k.toNat))).getD
                        j (0, 0)) := by
                    rw [List.getD_eq_getElem?_getD,
                      List.getElem?_eq_getElem hjlen]
                    rfl
                  obtain ⟨hp2j, hp2j1⟩ := pairUp_getElem? _ j _ hget
                  rw [List.getElem?_take_of_lt (by omega)] at hp2j
                  rw [List.getElem?_take_of_lt (by omega)] at hp2j1
                  have hmem : (pairUp (elmts.take (2 * k.toNat))).getD
                      j (0, 0) ∈ pairUp (elmts.take (2 * k.toNat)) := by
                    rw [List.getD_eq_getElem?_getD,
                      List.getElem?_eq_getElem hjlen]
                    exact List.getElem_mem hjlen
                  obtain ⟨hi1, hi2⟩ := hrefs _ hmem
                  obtain ⟨p, hp⟩ := Option.isSome_iff_exists.mp hi1
                  obtain ⟨s, hs⟩ := Option.isSome_iff_exists.mp hi2
                  obtain ⟨hq0, hqn, hqlen⟩ := resolve_ref_bounds hwf.1 hp
                  obtain ⟨hs0, hsn, hslen⟩ := resolve_ref_bounds hwf.1 hs
                  obtain ⟨wp, hwp, heqp⟩ := slot_of_resolve hp hprev
                  obtain ⟨ws, hws, heqs⟩ := slot_of_resolve hs hprev
                  refine ⟨_, _, hp2j, hp2j1, hq0, hs0, ?_, ?_⟩
                  · dsimp only
                    rw [slotW_eq hwp rfl]
                    exact hwp
                  · dsimp only
                    rw [slotW_eq hws rfl]
                    exact hws)
              simp only [zero_add] at hloop
              have hstep := sddStep_D weights ⟨wmc, m, true⟩ id vt k elmts rfl
              rw [← hline] at hstep
              dsimp only at hstep
              simp only [hloop, pySet_int h0 hlt'] at hstep
              have hden : ∀ f : Fin v → Bool, denS body v f m =
                  (elemRefs (lineAt body m)).any
                    (fun pr => elemDen body v m pr f) :=
                fun f => denS_D_eq hbody hD hres_all f
              have hsc : scopeS body m =
                  unionAll ((elemRefs (lineAt body m)).map
                    (fun pr => elemScope body m pr)) :=
                scopeS_D_eq hbody hD hres_all
              have helem : ∀ pr ∈ elemRefs (lineAt body m),
                  (cnt v (fun f => elemDen body v m pr f) : ℚ) *
                    2 ^ (elemScope body m pr).card =
                    (slotW wmc pr.1 * slotW wmc pr.2) * 2 ^ v := by
                intro pr hpr
                obtain ⟨hi1, hi2⟩ := hres_all pr hpr
                obtain ⟨p, hp⟩ := Option.isSome_iff_exists.mp hi1
                obtain ⟨s, hs⟩ := Option.isSome_iff_exists.mp hi2
                obtain ⟨wp, hwp, heqp⟩ := slot_of_resolve hp hprev
                obtain ⟨ws, hws, heqs⟩ := slot_of_resolve hs hprev
                have hrp : resIdx body m pr.1 = p := by
                  rw [resIdx, hp]
                  rfl
                have hrs : resIdx body m pr.2 = s := by
                  rw [resIdx, hs]
                  rfl
                have hdisj := (hsem m hm hD).1 pr hpr
                rw [hrp, hrs] at hdisj
                have hpair := cnt_and_pair v (fun f => denS body v f p)
                  (fun f => denS body v f s) (scopeS body p) (scopeS body s)
                  wp ws (denS_dep body v p) (denS_dep body v s) hdisj
                  heqp heqs
                rw [slotW_eq hwp rfl, slotW_eq hws rfl]
                have e1 : (fun f => elemDen body v m pr f) =
                    (fun f => denS body v f p && denS body v f s) := by
                  funext f
                  rw [elemDen, hrp, hrs]
                have e2 : elemScope body m pr =
                    scopeS body p ∪ scopeS body s := by
                  rw [elemScope, hrp, hrs]
                rw [e1, e2]
                exact hpair
              have hsmooth := (hsem m hm hD).2.1
              have hdet := (hsem m hm hD).2.2
              have hmain : (cnt v (fun f => denS body v f m) : ℚ) *
                  2 ^ (scopeS body m).card =
                  ((elemRefs (lineAt body m)).map
                    (fun pr => slotW wmc pr.1 * slotW wmc pr.2)).sum *
                    2 ^ v := by
                cases hsplit : elemRefs (lineAt body m) with
                | nil =>
                  have hc0 : cnt v (fun f => denS body v f m) =
                      cnt v (fun _ => false) := by
                    apply cnt_congr
                    intro f
                    rw [hden f, hsplit]
                    rfl
                  rw [hc0, cnt_false, hsc, hsplit]
                  simp [unionAll]
                | cons pr0 prest =>
                  rw [← hsplit]
                  have hpr0 : pr0 ∈ elemRefs (lineAt body m) := by
                    rw [hsplit]
                    exact List.mem_cons_self pr0 prest
                  have hS : ∀ pr ∈ elemRefs (lineAt body m),
                      elemScope body m pr = elemScope body m pr0 :=
                    fun pr hpr => hsmooth pr hpr pr0 hpr0
                  have hscS : scopeS body m = elemScope body m pr0 := by
                    rw [hsc]
                    apply foldr_union_const
                    · rw [hsplit]
                      simp
                    · intro t ht
                      obtain ⟨pr, hpr, rfl⟩ := List.mem_map.mp ht
                      exact hS pr hpr
                  have happ := cnt_orPred v (elemScope body m pr0)
                    ((elemRefs (lineAt body m)).map (fun pr =>
                      ((fun f => elemDen body v m pr f),
                        slotW wmc pr.1 * slotW wmc pr.2)))
                    (by
                      intro t ht
                      obtain ⟨pr, hpr, rfl⟩ := List.mem_map.mp ht
                      dsimp only
                      rw [← hS pr hpr]
                      exact helem pr hpr)
                    (List.Pairwise.map _ (fun a b hab => hab) hdet)
                  rw [List.map_map, List.map_map] at happ
                  have e1 : cnt v (fun f => denS body v f m) =
                      cnt v (orPred ((elemRefs (lineAt body m)).map
                        (fun pr => (fun f => elemDen body v m pr f)))) := by
                    apply cnt_congr
                    intro f
                    rw [hden f, orPred, list_any_map]
                  rw [e1, hscS]
                  exact happ
              have hsum := sum_range_getD
                (fun pr => slotW wmc pr.1 * slotW wmc pr.2) (0, 0)
                (pairUp (elmts.take (2 * k.toNat)))
              rw [hreflen] at hsum
              have hinvm : (cnt v (fun f => denS body v f m) : ℚ) *
                  2 ^ (scopeS body m).card =
                  (∑ j in Finset.range k.toNat,
                    slotW wmc
                      ((pairUp (elmts.take (2 * k.toNat))).getD j (0, 0)).1 *
                    slotW wmc
                      ((pairUp (elmts.take (2 * k.toNat))).getD
                        j (0, 0)).2) * 2 ^ v := by
                rw [hmain, hcr]
                rw [← hsum]
              obtain ⟨hp1, hp2⟩ :=
                setSlotS_post body n v hwf wmc m hm hlen hprev _ hinvm
              have hid : idOf body m = id := by
                rw [idOf, hline]
                simp [defId]
              rw [hid] at hp1 hp2
              exact ⟨_, hstep, hp1, hp2⟩
      · exfalso
        rw [sddLineWFb, if_neg hL, if_neg hFT, if_neg hD] at hlb
        exact Bool.noConfusion hlb

/-- Running the whole SDD body establishes the invariant for every
line. -/
theorem sddRunFrom_inv (body : List Line) (v : Nat)
    (weights : List (Int × ℚ)) (n : Int) (hwf : SddWF body n v)
    (hsem : SddSem body v) (hones : AllOnes weights v) :
    ∀ (rest : List Line) (m : Nat) (wmc : List (Option ℚ)),
      body.drop m = rest → m ≤ body.length →
      wmc.length = n.toNat →
      (∀ j, j < m → SlotInvS body v wmc j) →
      ∃ wmc2 : List (Option ℚ),
        sddRunFrom weights ⟨wmc, m, true⟩ rest =
          .ok ⟨wmc2, body.length, true⟩ ∧
        wmc2.length = n.toNat ∧
        (∀ j, j < body.length → SlotInvS body v wmc2 j) := by
  intro rest
  induction rest with
  | nil =>
    intro m wmc hdrop hle hlen hprev
    have hm : m = body.length := by
      have := List.drop_eq_nil_iff.mp hdrop
      omega
    subst hm
    exact ⟨wmc, rfl, hlen, fun j hj => hprev j hj⟩
  | cons l rest ih =>
    intro m wmc hdrop hle hlen hprev
    have hm : m < body.length := by
      by_contra hc
      rw [List.drop_eq_nil_of_le (by omega)] at hdrop
      exact List.noConfusion hdrop
    have hgot : body[m]? = some l := by
      have h0 : (body.drop m)[0]? = some l := by
        rw [hdrop]
        simp
      rwa [List.getElem?_drop, Nat.add_zero] at h0
    have hl : l = lineAt body m := by
      have h2 := lineAt_eq hm
      rw [hgot] at h2
      exact (Option.some.inj h2)
    have hdrop2 : body.drop (m + 1) = rest := by
      have h3 : (body.drop m).drop 1 = rest := by
        rw [hdrop]
        simp
      rw [List.drop_drop] at h3
      exact h3
    obtain ⟨wmc2, hstep, hlen2, hinv2⟩ :=
      sddStep_inv body v weights n hwf hsem hones m hm wmc hlen hprev
    rw [← hl] at hstep
    unfold sddRunFrom
    rw [hstep]
    exact ih (m + 1) wmc2 hdrop2 (by omega) hlen2 hinv2

/-- The SDD evaluator computes the model count: for a well-formed,
decomposable, smooth, deterministic body whose root node (id `0`) covers
all `v` variables, evaluation under an all-ones weight table returns
exactly the number of satisfying assignments. -/
theorem sdd_wmc_modelcount (body : List Line) (v : Nat)
    (weights : List (Int × ℚ)) (n : Int)
    (hwf : SddWF body n v) (hsem : SddSem body v) (hones : AllOnes weights v)
    (hrootdef : (defIdx body 0).isSome = true)
    (hroot : scopeS body (rootIdx body) = Finset.range v) :
    sdd_file_wmc (⟨"sdd", [n]⟩ :: body) weights =
      .ok (some ((sddModelCount body v : ℕ) : ℚ)) := by
  have hfirst : sddStep weights ⟨[], 0, false⟩ ⟨"sdd", [n]⟩ =
      .ok ⟨List.replicate n.toNat none, 0, true⟩ :=
    sddStep_header weights ⟨[], 0, false⟩ n []
  obtain ⟨wmc2, hrun, hlen2, hinv2⟩ :=
    sddRunFrom_inv body v weights n hwf hsem hones body 0
      (List.replicate n.toNat none) rfl (by omega) (by simp)
      (fun j hj => absurd hj (by omega))
  obtain ⟨r, hr⟩ := Option.isSome_iff_exists.mp hrootdef
  obtain ⟨hrlen, hrdef⟩ := defIdx_sound body 0 r hr
  have hridx : rootIdx body = r := by
    rw [rootIdx, hr]
    rfl
  obtain ⟨w, hw, heq⟩ := hinv2 r hrlen
  have hid : idOf body r = 0 := by
    rw [idOf, hrdef]
    rfl
  rw [hid] at hw
  rw [← hridx] at heq
  rw [hroot, Finset.card_range] at heq
  have h2v : ((2 : ℚ) ^ v) ≠ 0 := by positivity
  have hwval : w = ((sddModelCount body v : ℕ) : ℚ) := by
    have hcan := mul_right_cancel₀ h2v heq
    rw [← hcan]
    rfl
  subst hwval
  rw [sdd_file_wmc, sddRun]
  unfold sddRunFrom
  rw [hfirst]
  dsimp only
  rw [hrun]
  exact pyGet_int (by omega) hw

/-! ## Claim C7 -/
/-- C7 (amended): with an all-ones weight table the evaluators compute
the exact model count only under the circuit side conditions the original
claim leaves implicit.  For a structurally well-formed NNF body that is
decomposable (`A` children with pairwise disjoint scopes), smooth and
deterministic (`O` children with equal scopes and pairwise unsatisfiable
together) and whose final line covers all declared variables,
`nnf_file_wmc` returns exactly the number of satisfying assignments; and
for a structurally well-formed SDD body with pairwise distinct node ids
whose `D` elements are decomposable, smooth and deterministic and whose
root node (id `0`) covers all variables, `sdd_file_wmc` returns exactly
the number of satisfying assignments.  Without these side conditions the
returned weight can differ from the model count (see the
counterexample). -/
theorem c7_all_ones_model_count :
    (∀ (body : List Line) (v : Nat) (weights : List (Int × ℚ))
      (n e vv : Int),
      body.length = n.toNat → 0 < body.length →
      NnfWF body v → NnfSem body v → AllOnes weights v →
      scope body (body.length - 1) = Finset.range v →
      nnf_file_wmc (⟨"nnf", [n, e, vv]⟩ :: body) weights =
        .ok (some ((nnfModelCount body v : ℕ) : ℚ))) ∧
    (∀ (body : List Line) (v : Nat) (weights : List (Int × ℚ)) (n : Int),
      SddWF body n v → SddSem body v → AllOnes weights v →
      (defIdx body 0).isSome = true →
      scopeS body (rootIdx body) = Finset.range v →
      sdd_file_wmc (⟨"sdd", [n]⟩ :: body) weights =
        .ok (some ((sddModelCount body v : ℕ) : ℚ))) :=
  ⟨fun body v weights n e vv h1 h2 h3 h4 h5 h6 =>
    nnf_wmc_modelcount body v weights n e vv h1 h2 h3 h4 h5 h6,
   fun body v weights n h1 h2 h3 h4 h5 =>
    sdd_wmc_modelcount body v weights n h1 h2 h3 h4 h5⟩

/-- Witness for C7's amended statement: the NNF body `x1 ∨ ¬x1` over one
variable and the SDD body `(x1 ∧ ⊤) ∨ (¬x1 ∧ ⊤)` (decision root, id `0`)
over one variable; both evaluate, under the all-ones table, to their
model count. -/
theorem c7_witness :
    nnf_file_wmc [⟨"nnf", [3, 0, 1]⟩, ⟨"L", [1]⟩, ⟨"L", [-1]⟩,
        ⟨"O", [2, 2, 0, 1]⟩] [(1, 1), (-1, 1)] =
      .ok (some ((nnfModelCount [⟨"L", [1]⟩, ⟨"L", [-1]⟩,
        ⟨"O", [2, 2, 0, 1]⟩] 1 : ℕ) : ℚ)) ∧
    sdd_file_wmc [⟨"sdd", [4]⟩, ⟨"L", [1, 0, 1]⟩, ⟨"L", [2, 0, -1]⟩,
        ⟨"T", [3]⟩, ⟨"D", [0, 0, 2, 1, 3, 2, 3]⟩] [(1, 1), (-1, 1)] =
      .ok (some ((sddModelCount [⟨"L", [1, 0, 1]⟩, ⟨"L", [2, 0, -1]⟩,
        ⟨"T", [3]⟩, ⟨"D", [0, 0, 2, 1, 3, 2, 3]⟩] 1 : ℕ) : ℚ)) :=
  ⟨c7_all_ones_model_count.1 [⟨"L", [1]⟩, ⟨"L", [-1]⟩, ⟨"O", [2, 2, 0, 1]⟩]
      1 [(1, 1), (-1, 1)] 3 0 1 (by decide) (by decide) (by decide)
      (by decide) (by decide) (by decide),
   c7_all_ones_model_count.2 [⟨"L", [1, 0, 1]⟩, ⟨"L", [2, 0, -1]⟩,
      ⟨"T", [3]⟩, ⟨"D", [0, 0, 2, 1, 3, 2, 3]⟩] 1 [(1, 1), (-1, 1)] 4
      (by decide) (by decide) (by decide) (by decide) (by decide)⟩

/-- Counterexample to the original C7: the NNF file `nnf 1 0 2` / `L 1`
encodes the literal `x1` over two declared variables, whose model count
is `2`, yet under the all-ones weight table `nnf_file_wmc` returns `1` —
the evaluator does not smooth the circuit, so for non-smooth input it
does not return the number of satisfying assignments. -/
theorem c7_counterexample :
    nnf_file_wmc [⟨"nnf", [1, 0, 2]⟩, ⟨"L", [1]⟩]
        [(1, 1), (-1, 1), (2, 1), (-2, 1)] = .ok (some 1) ∧
    cnt 2 (fun f => den [⟨"L", [1]⟩] 2 f 0) = 2 := by
  constructor
  · with_unfolding_all decide
  · decide

end PySddIO
